import Mathlib

/-!
Shallow embedding of `src/c_modules/c_algorithms.c`: hex geometry,
a fixed-capacity binary min-heap, the A* path search (`c_find_path`)
and the budgeted Dijkstra reachability search (`c_find_reachable`),
together with proofs of the behavioural properties of the module.

Doubles are modelled by `WithTop ℚ` (finite rationals plus `⊤` for
`INFINITY`); all costs arising in the algorithms are of this form.
The unbounded C `while` loops are modelled with an explicit fuel that
is provably larger than the number of iterations the loop can make.
-/

namespace CAlg

/-- Extended cost value: a finite rational or `⊤` (the C `INFINITY`). -/
abbrev Cost := WithTop ℚ

/-! ## Hex geometry (`offset_to_axial`, `hex_distance`, direction tables) -/

/-- `offset_to_axial` from the C source: `q = col - (row - (row & 1)) / 2`, `r = row`.
For any `row`, `row - row % 2` is even, so every division convention agrees. -/
def offset_to_axial (col row : Int) : Int × Int :=
  (col - (row - row % 2) / 2, row)

/-- `hex_distance` from the C source:
`(|Δq| + |Δq + Δr| + |Δr|) / 2` on axial coordinates. -/
def hex_distance (a b : Int × Int) : Int :=
  ((a.1 - b.1).natAbs + (a.1 + a.2 - b.1 - b.2).natAbs + (a.2 - b.2).natAbs) / 2

/-- Neighbour offsets used for tiles on even rows (`even_row_dirs` in C). -/
def even_row_dirs : List (Int × Int) :=
  [(-1, -1), (0, -1), (1, 0), (0, 1), (-1, 1), (-1, 0)]

/-- Neighbour offsets used for tiles on odd rows (`odd_row_dirs` in C). -/
def odd_row_dirs : List (Int × Int) :=
  [(0, -1), (1, -1), (1, 0), (1, 1), (0, 1), (-1, 0)]

/-- Direction table selected by the C test `cy % 2 == 0`
(C truncated remainder and `Int.emod` agree on whether `cy % 2` is zero). -/
def dirsFor (cy : Int) : List (Int × Int) :=
  if cy % 2 = 0 then even_row_dirs else odd_row_dirs

/-! ## Binary min-heap (`MinHeap`, `create_heap`, `heap_push`, `heap_pop`) -/

/-- A queue entry: tile coordinates plus a priority (C `Node`). -/
structure Node where
  x : Int
  y : Int
  priority : Cost
deriving DecidableEq, Repr

/-- The node returned by `heap_pop` on an empty heap: `{-1, -1, -1.0}`. -/
def sentinelNode : Node := ⟨-1, -1, ((-1 : ℚ) : Cost)⟩

/-- Array-backed min-heap with a fixed capacity (C `MinHeap`);
`nodes.length` plays the role of the C `size` field. -/
structure MinHeap where
  nodes : List Node
  capacity : Nat
deriving Repr

/-- `create_heap`: an empty heap with the given capacity. -/
def create_heap (capacity : Nat) : MinHeap := ⟨[], capacity⟩

/-- Read of the backing array at index `i` (all C accesses are in bounds;
out-of-range reads return the sentinel). -/
def lget (l : List Node) (i : Nat) : Node := l.getD i sentinelNode

/-- Swap of two cells of the backing array. -/
def lswap (l : List Node) (i j : Nat) : List Node :=
  (l.set i (lget l j)).set j (lget l i)

/-- The sift-up loop of `heap_push`, starting at index `i`
(second argument); the C loop runs `while (i > 0)` moving `i` to
`(i - 1) / 2`, so `i` strictly decreases and `i` itself bounds the
number of iterations, which the structural fuel (first argument) uses. -/
def siftUp : Nat → List Node → Nat → List Node
  | _, l, 0 => l
  | 0, l, _ + 1 => l
  | fuel + 1, l, i + 1 =>
    let parent := i / 2
    if (lget l (i + 1)).priority < (lget l parent).priority then
      siftUp fuel (lswap l (i + 1) parent) parent
    else l

/-- `heap_push`: silently drops the entry when the heap is at capacity,
otherwise appends it and sifts it up. -/
def heap_push (h : MinHeap) (x y : Int) (p : Cost) : MinHeap :=
  if h.capacity ≤ h.nodes.length then h
  else
    ⟨siftUp h.nodes.length (h.nodes ++ [⟨x, y, p⟩]) h.nodes.length, h.capacity⟩

/-- The index `smallest` computed by one iteration of the sift-down
loop of `heap_pop`: the smaller-priority child of `i` if it improves
on `i`, else `i` itself. -/
def downTarget (l : List Node) (i : Nat) : Nat :=
  let left := 2 * i + 1
  let right := 2 * i + 2
  let s₁ := if left < l.length ∧ (lget l left).priority < (lget l i).priority then left else i
  if right < l.length ∧ (lget l right).priority < (lget l s₁).priority then right else s₁

/-- The sift-down loop of `heap_pop` starting at index `i`; the moving
index at least doubles each iteration, so the array length bounds the
number of iterations, which the structural fuel uses. -/
def siftDown : Nat → List Node → Nat → List Node
  | 0, l, _ => l
  | fuel + 1, l, i =>
    let s₂ := downTarget l i
    if s₂ ≠ i then siftDown fuel (lswap l i s₂) s₂ else l

/-- `heap_pop`: returns the sentinel on an empty heap; otherwise removes
the root, moves the last cell to the root and sifts it down. -/
def heap_pop (h : MinHeap) : Node × MinHeap :=
  if h.nodes = [] then (sentinelNode, h)
  else
    let root := lget h.nodes 0
    let last := lget h.nodes (h.nodes.length - 1)
    let l := (h.nodes.set 0 last).dropLast
    (root, ⟨siftDown l.length l 0, h.capacity⟩)

/-! ## Cost model -/

/-- Table lookup for the terrain id of tile `idx`: the C
`move_cost = 1.0; if (terrain_id >= 0 && terrain_id < 100) move_cost = costs[terrain_id]`. -/
def tableCost (grid : Int → Int) (costs : Int → Cost) (idx : Int) : Cost :=
  if 0 ≤ grid idx ∧ grid idx < 100 then costs (grid idx) else 1

/-- Effective move cost of entering the tile with linear index `idx`
(C lines shared by both engines): the table lookup clamped to a
minimum of `1.0` (`if (move_cost < 1.0) move_cost = 1.0`). -/
def moveCost (grid : Int → Int) (costs : Int → Cost) (idx : Int) : Cost :=
  if tableCost grid costs idx < 1 then 1 else tableCost grid costs idx

/-- One override entry of the parsed cost map: ids outside `[0, 100)`
are ignored (C `if (id >= 0 && id < 100) costs_out[id] = cost`). -/
def applyOverride (costs : Int → Cost) (id : Int) (v : Cost) : Int → Cost :=
  fun i => if 0 ≤ id ∧ id < 100 then (if i = id then v else costs i) else costs i

/-! ## Dijkstra reachability engine (`c_find_reachable`) -/

/-- Search state of `c_find_reachable`: best-known cost and closed flag
per linear index, plus the priority queue. -/
structure RState where
  minCosts : Int → Cost
  closed : Int → Bool
  queue : MinHeap

/-- Relaxation of one neighbour direction `d` from tile `(cx, cy)`
(the body of the `for (int i=0; i<6; i++)` loop of `c_find_reachable`). -/
def relaxReach (width height : Int) (grid : Int → Int) (costs : Int → Cost)
    (blocked zoc : Int → Bool) (maxCost : ℚ) (cx cy cIdx : Int)
    (s : RState) (d : Int × Int) : RState :=
  let nx := cx + d.1
  let ny := cy + d.2
  if nx < 0 ∨ width ≤ nx ∨ ny < 0 ∨ height ≤ ny then s
  else
    let nIdx := ny * width + nx
    if s.closed nIdx then s
    else if blocked nIdx then s
    else if zoc cIdx ∧ ¬ zoc nIdx then s
    else
      let mc := moveCost grid costs nIdx
      if mc = ⊤ then s
      else
        let newCost := s.minCosts cIdx + mc
        if (maxCost : Cost) < newCost then s
        else if newCost < s.minCosts nIdx then
          { minCosts := fun i => if i = nIdx then newCost else s.minCosts i,
            closed := s.closed,
            queue := heap_push s.queue nx ny newCost }
        else s

/-- One iteration of the `while (queue->size > 0)` loop of
`c_find_reachable`: pop, stale checks, close, relax the six neighbours. -/
def reachStep (width height : Int) (grid : Int → Int) (costs : Int → Cost)
    (blocked zoc : Int → Bool) (maxCost : ℚ) (s : RState) : RState :=
  let pr := heap_pop s.queue
  let current := pr.1
  let cx := current.x
  let cy := current.y
  let cIdx := cy * width + cx
  let s' : RState := { s with queue := pr.2 }
  if s.minCosts cIdx < current.priority then s'
  else if s.closed cIdx then s'
  else
    let s'' : RState := { s' with closed := fun i => if i = cIdx then true else s.closed i }
    (dirsFor cy).foldl (relaxReach width height grid costs blocked zoc maxCost cx cy cIdx) s''

/-- The search loop of `c_find_reachable`, with fuel bounding the
number of iterations. -/
def reachLoop (width height : Int) (grid : Int → Int) (costs : Int → Cost)
    (blocked zoc : Int → Bool) (maxCost : ℚ) : Nat → RState → RState
  | 0, s => s
  | fuel + 1, s =>
    if s.queue.nodes = [] then s
    else reachLoop width height grid costs blocked zoc maxCost fuel
      (reachStep width height grid costs blocked zoc maxCost s)

/-- Initial state of `c_find_reachable` (after the `start_idx` bounds
guard): `min_costs[start] = 0`, nothing closed, the start pushed at
priority `0` into a heap of capacity `map_size`. -/
def reachInit (width height sx sy : Int) : RState :=
  { minCosts := fun i => if i = sy * width + sx then 0 else ⊤,
    closed := fun _ => false,
    queue := heap_push (create_heap (width * height).toNat) sx sy 0 }

/-- Fuel sufficient for either search loop: the measure
`queue size + 7 · (number of unclosed in-range tiles)` starts below it
and strictly decreases at every iteration. -/
def loopFuel (width height : Int) : Nat := 2 + 7 * (width * height).toNat

/-- The final search state computed by `c_find_reachable`
(all-`⊤`, empty-queue state when the start index is out of range). -/
def reachFinal (width height : Int) (grid : Int → Int) (costs : Int → Cost)
    (sx sy : Int) (blocked : Int → Bool) (maxCost : ℚ) (zoc : Int → Bool) : RState :=
  if 0 ≤ sy * width + sx ∧ sy * width + sx < width * height then
    reachLoop width height grid costs blocked zoc maxCost
      (loopFuel width height) (reachInit width height sx sy)
  else
    { minCosts := fun _ => ⊤, closed := fun _ => false,
      queue := create_heap (width * height).toNat }

/-- `c_find_reachable`: the result dictionary, modelled as the list of
`(coordinate, cost)` pairs produced by the final `for (y) for (x)`
loops, keeping tiles with `min_costs[idx] <= max_cost`. -/
def c_find_reachable (width height : Int) (grid : Int → Int) (costs : Int → Cost)
    (sx sy : Int) (blocked : Int → Bool) (maxCost : ℚ) (zoc : Int → Bool) :
    List ((Int × Int) × Cost) :=
  let s := reachFinal width height grid costs sx sy blocked maxCost zoc
  (List.range height.toNat).flatMap fun (y : Nat) =>
    (List.range width.toNat).filterMap fun (x : Nat) =>
      if s.minCosts ((y : Int) * width + (x : Int)) ≤ (maxCost : Cost) then
        some (((x : Int), (y : Int)), s.minCosts ((y : Int) * width + (x : Int)))
      else none

/-! ## A* path engine (`c_find_path`) -/

/-- Search state of `c_find_path`: g-score, predecessor and closed flag
per linear index, plus the open set. -/
structure PState where
  gScores : Int → Cost
  parents : Int → Int
  closed : Int → Bool
  openSet : MinHeap

/-- The A* heuristic value pushed with a tile:
`hex_distance(offset_to_axial(nx, ny), offset_to_axial(ex, ey))`. -/
def hexH (nx ny ex ey : Int) : Cost :=
  ((hex_distance (offset_to_axial nx ny) (offset_to_axial ex ey) : ℚ) : Cost)

/-- Relaxation of one neighbour direction `d` from tile `(cx, cy)`
(the body of the neighbour loop of `c_find_path`). -/
def relaxPath (width height : Int) (grid : Int → Int) (costs : Int → Cost)
    (blocked : Int → Bool) (ex ey : Int) (maxCost : ℚ) (cx cy cIdx : Int)
    (s : PState) (d : Int × Int) : PState :=
  let nx := cx + d.1
  let ny := cy + d.2
  if nx < 0 ∨ width ≤ nx ∨ ny < 0 ∨ height ≤ ny then s
  else
    let nIdx := ny * width + nx
    if s.closed nIdx then s
    else if blocked nIdx then s
    else
      let mc := moveCost grid costs nIdx
      if mc = ⊤ then s
      else
        let tg := s.gScores cIdx + mc
        if 0 ≤ maxCost ∧ (maxCost : Cost) < tg then s
        else if tg < s.gScores nIdx then
          { gScores := fun i => if i = nIdx then tg else s.gScores i,
            parents := fun i => if i = nIdx then cIdx else s.parents i,
            closed := s.closed,
            openSet := heap_push s.openSet nx ny (tg + hexH nx ny ex ey) }
        else s

/-- One iteration of the search loop of `c_find_path`: pop, goal test,
stale check, close, relax the six neighbours.  The boolean is the
`found` flag set by the `break`. -/
def pathStep (width height : Int) (grid : Int → Int) (costs : Int → Cost)
    (blocked : Int → Bool) (ex ey : Int) (maxCost : ℚ) (s : PState) : Bool × PState :=
  let pr := heap_pop s.openSet
  let current := pr.1
  let cx := current.x
  let cy := current.y
  let cIdx := cy * width + cx
  let s' : PState := { s with openSet := pr.2 }
  if cx = ex ∧ cy = ey then (true, s')
  else if s.closed cIdx then (false, s')
  else
    let s'' : PState := { s' with closed := fun i => if i = cIdx then true else s.closed i }
    (false,
      (dirsFor cy).foldl (relaxPath width height grid costs blocked ex ey maxCost cx cy cIdx) s'')

/-- The search loop of `c_find_path`, with fuel bounding the number of
iterations; stops with `true` as soon as the goal is popped. -/
def pathLoop (width height : Int) (grid : Int → Int) (costs : Int → Cost)
    (blocked : Int → Bool) (ex ey : Int) (maxCost : ℚ) : Nat → PState → Bool × PState
  | 0, s => (false, s)
  | fuel + 1, s =>
    if s.openSet.nodes = [] then (false, s)
    else
      let r := pathStep width height grid costs blocked ex ey maxCost s
      if r.1 then r
      else pathLoop width height grid costs blocked ex ey maxCost fuel r.2

/-- Initial state of `c_find_path` (after the `start_idx` bounds guard):
`g_scores[start] = 0`, no predecessors, nothing closed, the start pushed
at the heuristic priority into a heap of capacity `map_size`. -/
def pathInit (width height sx sy ex ey : Int) : PState :=
  { gScores := fun i => if i = sy * width + sx then 0 else ⊤,
    parents := fun _ => -1,
    closed := fun _ => false,
    openSet := heap_push (create_heap (width * height).toNat) sx sy (hexH sx sy ex ey) }

/-- Path reconstruction of `c_find_path`: walk the predecessor links
from `end_idx` back to `start_idx`, prepending `(curr % width, curr / width)`
at each step (C division and `Int.emod`/`Int.ediv` agree on the
non-negative indices that occur); the fuel bounds the walk length. -/
def buildPath (width startIdx : Int) (parents : Int → Int) :
    Nat → Int → List (Int × Int) → List (Int × Int)
  | 0, _, acc => acc
  | fuel + 1, curr, acc =>
    if curr = startIdx then acc
    else buildPath width startIdx parents fuel (parents curr)
      ((curr % width, curr / width) :: acc)

/-- `c_find_path`: `none` models the C `Py_None` "no path" result,
`some path` the reconstructed coordinate list. -/
def c_find_path (width height : Int) (grid : Int → Int) (costs : Int → Cost)
    (sx sy ex ey : Int) (blocked : Int → Bool) (maxCost : ℚ) :
    Option (List (Int × Int)) :=
  if 0 ≤ sy * width + sx ∧ sy * width + sx < width * height then
    let r := pathLoop width height grid costs blocked ex ey maxCost
      (loopFuel width height) (pathInit width height sx sy ex ey)
    if r.1 then
      some (buildPath width (sy * width + sx) r.2.parents
        ((width * height).toNat + 1) (ey * width + ex) [])
    else none
  else none

/-! ## Paths over the hex grid -/

/-- A coordinate lies on the `width × height` grid. -/
def inB (width height : Int) (t : Int × Int) : Prop :=
  0 ≤ t.1 ∧ t.1 < width ∧ 0 ≤ t.2 ∧ t.2 < height

instance (width height : Int) (t : Int × Int) : Decidable (inB width height t) := by
  unfold inB; infer_instance

/-- Linear index of a coordinate, as computed by the C code. -/
def idxOf (width : Int) (t : Int × Int) : Int := t.2 * width + t.1

/-- A chain of steps of the relation `R` starting at `c`. -/
def chainOk (R : (Int × Int) → (Int × Int) → Prop) : (Int × Int) → List (Int × Int) → Prop
  | _, [] => True
  | c, n :: rest => R c n ∧ chainOk R n rest

/-- The tile a chain from `c` ends at (`c` itself for the empty chain). -/
def chainEnd (c : Int × Int) (l : List (Int × Int)) : Int × Int := (l.getLast?).getD c

/-- One permitted move of the reachability engine, from tile `c` to
tile `n`: a hex step per the row-parity direction table, in bounds, not
blocked, passable terrain, and not a ZoC-to-open move. -/
def rStepOk (width height : Int) (grid : Int → Int) (costs : Int → Cost)
    (blocked zoc : Int → Bool) (c n : Int × Int) : Prop :=
  (n.1 - c.1, n.2 - c.2) ∈ dirsFor c.2 ∧ inB width height n ∧
    blocked (idxOf width n) = false ∧ moveCost grid costs (idxOf width n) ≠ ⊤ ∧
    ¬(zoc (idxOf width c) = true ∧ zoc (idxOf width n) = false)

/-- Cost of a path: the sum of the clamped effective costs of the tiles
entered. -/
def pathCost (width : Int) (grid : Int → Int) (costs : Int → Cost)
    (l : List (Int × Int)) : Cost :=
  (l.map fun t => moveCost grid costs (idxOf width t)).sum

/-! ## Loop invariants (statements) and the walk measure -/

section

variable (width height : Int) (grid : Int → Int) (costs : Int → Cost)
variable (blocked zoc : Int → Bool) (maxCost : ℚ) (sx sy : Int)

/-- Invariant of the `c_find_reachable` search loop, for an in-bounds
start: every queue entry is in bounds, every finite recorded cost is
realised by a permitted path, every finite non-start cost respects
the budget, and the start keeps cost `0`. -/
structure RI (s : RState) : Prop where
  coords : ∀ e ∈ s.queue.nodes, inB width height (e.x, e.y)
  sound : ∀ t : Int × Int, inB width height t → s.minCosts (idxOf width t) ≠ ⊤ →
    ∃ l, chainOk (rStepOk width height grid costs blocked zoc) (sx, sy) l ∧
      chainEnd (sx, sy) l = t ∧
      pathCost width grid costs l = s.minCosts (idxOf width t)
  bounded : ∀ t : Int × Int, inB width height t → t ≠ (sx, sy) →
    s.minCosts (idxOf width t) = ⊤ ∨ s.minCosts (idxOf width t) ≤ (maxCost : Cost)
  startVal : s.minCosts (idxOf width (sx, sy)) = 0

end

section

variable (width height : Int) (grid : Int → Int) (costs : Int → Cost)
variable (blocked : Int → Bool) (ex ey : Int) (sx sy : Int)

/-- One hex step accepted by the path engine: a direction-table move to
an in-bounds, unblocked, passable tile. -/
def pStepOk (c n : Int × Int) : Prop :=
  (n.1 - c.1, n.2 - c.2) ∈ dirsFor c.2 ∧ inB width height n ∧
    blocked (idxOf width n) = false ∧ moveCost grid costs (idxOf width n) ≠ ⊤

/-- Invariant of the `c_find_path` search loop. -/
structure PI (s : PState) : Prop where
  entries : ∀ e ∈ s.openSet.nodes,
    inB width height (e.x, e.y) ∨ (e.x, e.y) = (sx, sy)
  entriesG : ∀ e ∈ s.openSet.nodes, s.gScores (e.y * width + e.x) ≠ ⊤
  entriesStart : ∀ e ∈ s.openSet.nodes,
    e.y * width + e.x = sy * width + sx → (e.x, e.y) = (sx, sy)
  startFresh : s.closed (sy * width + sx) = false →
    (∀ e ∈ s.openSet.nodes, (e.x, e.y) = (sx, sy)) ∧ s.openSet.nodes.length ≤ 1
  startFirst : s.closed (sy * width + sx) = false → ∀ i, s.closed i = false
  goalClosed : s.closed (ey * width + ex) = true →
    ∀ e ∈ s.openSet.nodes, ¬(e.x = ex ∧ e.y = ey)
  gStart : s.gScores (sy * width + sx) = 0
  gNonneg : ∀ i, 0 ≤ s.gScores i
  parentSet : ∀ t : Int × Int, inB width height t → idxOf width t ≠ sy * width + sx →
    s.gScores (idxOf width t) ≠ ⊤ → s.parents (idxOf width t) ≠ -1
  parentOk : ∀ n : Int × Int, inB width height n → s.parents (idxOf width n) ≠ -1 →
    ∃ c : Int × Int, (inB width height c ∨ c = (sx, sy)) ∧
      s.parents (idxOf width n) = idxOf width c ∧
      (n.1 - c.1, n.2 - c.2) ∈ dirsFor c.2 ∧
      blocked (idxOf width n) = false ∧
      moveCost grid costs (idxOf width n) ≠ ⊤ ∧
      s.closed (idxOf width c) = true ∧
      s.gScores (idxOf width c) ≠ ⊤ ∧
      s.gScores (idxOf width c) < s.gScores (idxOf width n) ∧
      (idxOf width c = sy * width + sx → c = (sx, sy))

end

/-- Termination measure for the predecessor walk of `buildPath`: the
number of in-range linear indices whose g-score is strictly below that
of index `i`. -/
def gMeasure (width height : Int) (g : Int → Cost) (i : Int) : Nat :=
  ((Finset.Icc 0 (width * height - 1)).filter (fun j => g j < g i)).card

/-! ## Elementary facts -/

theorem moveCost_ge_one (grid : Int → Int) (costs : Int → Cost) (idx : Int) :
    1 ≤ moveCost grid costs idx := by
  unfold moveCost
  split
  · exact le_refl 1
  · next h => exact not_lt.mp h

theorem moveCost_nonneg (grid : Int → Int) (costs : Int → Cost) (idx : Int) :
    0 ≤ moveCost grid costs idx :=
  le_trans (by exact_mod_cast zero_le_one) (moveCost_ge_one grid costs idx)

theorem pathCost_nonneg (width : Int) (grid : Int → Int) (costs : Int → Cost)
    (l : List (Int × Int)) : 0 ≤ pathCost width grid costs l := by
  induction l with
  | nil => simp [pathCost]
  | cons a l ih =>
    have := moveCost_nonneg grid costs (idxOf width a)
    simpa [pathCost, List.map_cons, List.sum_cons] using
      add_nonneg this (by simpa [pathCost] using ih)

theorem pathCost_append_singleton (width : Int) (grid : Int → Int) (costs : Int → Cost)
    (l : List (Int × Int)) (t : Int × Int) :
    pathCost width grid costs (l ++ [t]) =
      pathCost width grid costs l + moveCost grid costs (idxOf width t) := by
  simp [pathCost]

/-- Coordinates in bounds have distinct linear indices. -/
theorem idxOf_inj (width height : Int) {a b : Int × Int}
    (ha : inB width height a) (hb : inB width height b)
    (h : idxOf width a = idxOf width b) : a = b := by
  obtain ⟨ha1, ha2, _, _⟩ := ha
  obtain ⟨hb1, hb2, _, _⟩ := hb
  have hw : 0 < width := lt_of_le_of_lt ha1 ha2
  unfold idxOf at h
  have hk : a.1 - b.1 = (b.2 - a.2) * width := by linarith
  rcases lt_trichotomy (b.2 - a.2) 0 with hlt | heq | hgt
  · exfalso
    have : (b.2 - a.2) * width ≤ -width := by nlinarith
    omega
  · have h2 : a.2 = b.2 := by omega
    rw [heq, zero_mul] at hk
    exact Prod.ext (by omega) h2
  · exfalso
    have : width ≤ (b.2 - a.2) * width := by nlinarith
    omega

/-- The linear index of an in-bounds coordinate lies in `[0, width*height)`. -/
theorem idxOf_range (width height : Int) {t : Int × Int} (h : inB width height t) :
    0 ≤ idxOf width t ∧ idxOf width t < width * height := by
  obtain ⟨h1, h2, h3, h4⟩ := h
  unfold idxOf
  constructor
  · nlinarith
  · nlinarith

/-- `%`/`/` recover an in-bounds coordinate from its index. -/
theorem idxOf_recover (width height : Int) {t : Int × Int} (h : inB width height t) :
    idxOf width t % width = t.1 ∧ idxOf width t / width = t.2 := by
  obtain ⟨h1, h2, _, _⟩ := h
  unfold idxOf
  constructor
  · rw [add_comm, mul_comm, Int.add_mul_emod_self_left]
    exact Int.emod_eq_of_lt h1 h2
  · rw [add_comm, Int.add_mul_ediv_right _ _ (by omega : width ≠ 0)]
    rw [Int.ediv_eq_zero_of_lt h1 h2]
    omega

/-! ## Heap membership lemmas -/

theorem lget_mem {l : List Node} {i : Nat} (h : i < l.length) : lget l i ∈ l := by
  unfold lget
  rw [List.getD_eq_getElem?_getD, List.getElem?_eq_getElem h]
  exact List.getElem_mem _

theorem mem_set_subset {l : List Node} {i : Nat} {v a : Node}
    (h : a ∈ l.set i v) : a ∈ l ∨ a = v := by
  rcases List.mem_or_eq_of_mem_set h with h' | h'
  · exact Or.inl h'
  · exact Or.inr h'

theorem mem_lswap {l : List Node} {i j : Nat} {a : Node}
    (hi : i < l.length) (hj : j < l.length) (h : a ∈ lswap l i j) : a ∈ l := by
  unfold lswap at h
  rcases mem_set_subset h with h' | h'
  · rcases mem_set_subset h' with h'' | h''
    · exact h''
    · exact h'' ▸ lget_mem hj
  · exact h' ▸ lget_mem hi

theorem lswap_length (l : List Node) (i j : Nat) : (lswap l i j).length = l.length := by
  unfold lswap; simp

theorem mem_siftUp : ∀ (fuel : Nat) (l : List Node) (i : Nat), i < l.length →
    ∀ a ∈ siftUp fuel l i, a ∈ l := by
  intro fuel
  induction fuel with
  | zero =>
    intro l i _ a ha
    match i with
    | 0 => simpa [siftUp] using ha
    | _ + 1 => simpa [siftUp] using ha
  | succ fuel ih =>
    intro l i hi a ha
    match i with
    | 0 => simpa [siftUp] using ha
    | i + 1 =>
      rw [siftUp] at ha
      split at ha
      · have hp : i / 2 < l.length := lt_trans (by omega) hi
        exact mem_lswap hi hp
          (ih _ (i / 2) (by rw [lswap_length]; omega) a ha)
      · exact ha

theorem downTarget_lt {l : List Node} {i : Nat} (hi : i < l.length) :
    downTarget l i < l.length := by
  unfold downTarget
  dsimp only
  by_cases h1 : 2 * i + 1 < l.length ∧ (lget l (2 * i + 1)).priority < (lget l i).priority
  · rw [if_pos h1]
    split
    · next hc => exact hc.1
    · exact h1.1
  · rw [if_neg h1]
    split
    · next hc => exact hc.1
    · exact hi

theorem mem_siftDown : ∀ (fuel : Nat) (l : List Node) (i : Nat), i < l.length →
    ∀ a ∈ siftDown fuel l i, a ∈ l := by
  intro fuel
  induction fuel with
  | zero => intro l i _ a ha; simpa [siftDown] using ha
  | succ fuel ih =>
    intro l i hi a ha
    rw [siftDown] at ha
    split at ha
    · exact mem_lswap hi (downTarget_lt hi)
        (ih _ _ (by rw [lswap_length]; exact downTarget_lt hi) a ha)
    · exact ha

theorem mem_heap_push {h : MinHeap} {x y : Int} {p : Cost} {a : Node}
    (ha : a ∈ (heap_push h x y p).nodes) : a ∈ h.nodes ∨ a = ⟨x, y, p⟩ := by
  unfold heap_push at ha
  split at ha
  · exact Or.inl ha
  · have := mem_siftUp h.nodes.length (h.nodes ++ [⟨x, y, p⟩]) h.nodes.length
      (by simp) a ha
    rcases List.mem_append.mp this with h' | h'
    · exact Or.inl h'
    · exact Or.inr (by simpa using h')

theorem heap_pop_root_mem {h : MinHeap} (hne : h.nodes ≠ []) :
    (heap_pop h).1 ∈ h.nodes := by
  unfold heap_pop
  rw [if_neg hne]
  exact lget_mem (List.length_pos.mpr hne)

theorem heap_pop_rest_subset {h : MinHeap} {a : Node}
    (ha : a ∈ (heap_pop h).2.nodes) : a ∈ h.nodes := by
  unfold heap_pop at ha
  split at ha
  · exact ha
  · next hne =>
    have hne' : h.nodes ≠ [] := hne
    have hlast : lget h.nodes (h.nodes.length - 1) ∈ h.nodes :=
      lget_mem (by have := List.length_pos.mpr hne'; omega)
    dsimp only at ha
    by_cases hll :
        ((h.nodes.set 0 (lget h.nodes (h.nodes.length - 1))).dropLast).length = 0
    · rw [List.length_eq_zero.mp hll] at ha
      simp [List.length_eq_zero.mp hll, siftDown] at ha
    · have h1 := mem_siftDown _ _ 0 (by omega) a ha
      have h2 : a ∈ h.nodes.set 0 (lget h.nodes (h.nodes.length - 1)) :=
        List.dropLast_subset _ h1
      rcases mem_set_subset h2 with h' | h'
      · exact h'
      · exact h' ▸ hlast

theorem heap_push_capacity (h : MinHeap) (x y : Int) (p : Cost) :
    (heap_push h x y p).capacity = h.capacity := by
  unfold heap_push; split <;> rfl

theorem heap_pop_capacity (h : MinHeap) :
    (heap_pop h).2.capacity = h.capacity := by
  unfold heap_pop; split <;> rfl

/-- Generic preservation of a predicate by a left fold. -/
theorem foldl_preserve {α β : Type _} {P : α → Prop} (f : α → β → α) :
    ∀ (l : List β) (s : α), P s → (∀ s' b, b ∈ l → P s' → P (f s' b)) →
      P (l.foldl f s) := by
  intro l
  induction l with
  | nil => intro s hs _; simpa using hs
  | cons b l ih =>
    intro s hs hstep
    exact ih (f s b) (hstep s b (List.mem_cons_self b l) hs)
      (fun s' b' hb' => hstep s' b' (List.mem_cons_of_mem _ hb'))

theorem chainOk_append_one {R : (Int × Int) → (Int × Int) → Prop} :
    ∀ {l : List (Int × Int)} {c n : Int × Int}, chainOk R c l →
      R (chainEnd c l) n → chainOk R c (l ++ [n]) := by
  intro l
  induction l with
  | nil =>
    intro c n _ hR
    exact ⟨by simpa [chainEnd] using hR, trivial⟩
  | cons a l ih =>
    intro c n hc hR
    obtain ⟨h1, h2⟩ := hc
    refine ⟨h1, ih h2 ?_⟩
    simpa [chainEnd, List.getLast?_cons] using hR

theorem chainEnd_append_one (c n : Int × Int) (l : List (Int × Int)) :
    chainEnd c (l ++ [n]) = n := by
  simp [chainEnd]

/-- Every tile visited by an `R`-chain satisfies any property preserved
along `R`-steps and holding at the source. -/
theorem chainOk_all {R : (Int × Int) → (Int × Int) → Prop} {P : (Int × Int) → Prop} :
    ∀ {l : List (Int × Int)} {c : Int × Int}, chainOk R c l → P c →
      (∀ a b, R a b → P a → P b) → ∀ t ∈ l, P t := by
  intro l
  induction l with
  | nil => intro c _ _ _ t ht; cases ht
  | cons a l ih =>
    intro c hc hPc hstep t ht
    obtain ⟨h1, h2⟩ := hc
    rcases List.mem_cons.mp ht with rfl | ht'
    · exact hstep c t h1 hPc
    · exact ih h2 (hstep c a h1 hPc) hstep t ht'

/-- The cost of a path is at least the move cost of any tile on it. -/
theorem pathCost_ge_mem (width : Int) (grid : Int → Int) (costs : Int → Cost)
    {l : List (Int × Int)} {t : Int × Int} (ht : t ∈ l) :
    moveCost grid costs (idxOf width t) ≤ pathCost width grid costs l := by
  have hmem : moveCost grid costs (idxOf width t) ∈
      l.map fun a => moveCost grid costs (idxOf width a) :=
    List.mem_map_of_mem _ ht
  exact List.single_le_sum
    (fun x hx => by
      obtain ⟨a, _, rfl⟩ := List.mem_map.mp hx
      exact moveCost_nonneg grid costs (idxOf width a)) _ hmem

/-! ## Reachability engine invariants -/

section ReachInv

variable (width height : Int) (grid : Int → Int) (costs : Int → Cost)
variable (blocked zoc : Int → Bool) (maxCost : ℚ) (sx sy : Int)

theorem RI_init (hstart : inB width height (sx, sy)) :
    RI width height grid costs blocked zoc maxCost sx sy (reachInit width height sx sy) := by
  have hidx : sy * width + sx = idxOf width (sx, sy) := rfl
  constructor
  · intro e he
    rcases mem_heap_push he with h' | h'
    · cases h'
    · rw [h']; exact hstart
  · intro t ht hfin
    simp only [reachInit] at hfin
    rw [hidx] at hfin
    by_cases h : idxOf width t = idxOf width (sx, sy)
    · have : t = (sx, sy) := idxOf_inj width height ht hstart h
      subst this
      refine ⟨[], trivial, rfl, ?_⟩
      simp [reachInit, pathCost, hidx]
    · rw [if_neg h] at hfin
      exact absurd rfl hfin
  · intro t ht hne
    left
    simp only [reachInit]
    rw [hidx, if_neg (fun h => hne (idxOf_inj width height ht hstart h))]
  · simp [reachInit, hidx]

/-- Exhaustive description of one neighbour relaxation: either the
state is unchanged, or all guards passed and the state records the new
cost and pushes the neighbour. -/
theorem relaxReach_cases (s : RState) (cx cy : Int) (d : Int × Int) :
    relaxReach width height grid costs blocked zoc maxCost cx cy
      (idxOf width (cx, cy)) s d = s ∨
    (inB width height (cx + d.1, cy + d.2) ∧
      s.closed (idxOf width (cx + d.1, cy + d.2)) = false ∧
      blocked (idxOf width (cx + d.1, cy + d.2)) = false ∧
      ¬(zoc (idxOf width (cx, cy)) = true ∧
        zoc (idxOf width (cx + d.1, cy + d.2)) = false) ∧
      moveCost grid costs (idxOf width (cx + d.1, cy + d.2)) ≠ ⊤ ∧
      s.minCosts (idxOf width (cx, cy)) +
        moveCost grid costs (idxOf width (cx + d.1, cy + d.2)) ≤ (maxCost : Cost) ∧
      s.minCosts (idxOf width (cx, cy)) +
        moveCost grid costs (idxOf width (cx + d.1, cy + d.2)) <
        s.minCosts (idxOf width (cx + d.1, cy + d.2)) ∧
      relaxReach width height grid costs blocked zoc maxCost cx cy
        (idxOf width (cx, cy)) s d =
        { minCosts := fun i => if i = idxOf width (cx + d.1, cy + d.2) then
            s.minCosts (idxOf width (cx, cy)) +
              moveCost grid costs (idxOf width (cx + d.1, cy + d.2))
          else s.minCosts i,
          closed := s.closed,
          queue := heap_push s.queue (cx + d.1) (cy + d.2)
            (s.minCosts (idxOf width (cx, cy)) +
              moveCost grid costs (idxOf width (cx + d.1, cy + d.2))) }) := by
  unfold relaxReach
  dsimp only
  have hidx : (cy + d.2) * width + (cx + d.1) = idxOf width (cx + d.1, cy + d.2) := rfl
  by_cases hb : cx + d.1 < 0 ∨ width ≤ cx + d.1 ∨ cy + d.2 < 0 ∨ height ≤ cy + d.2
  · rw [if_pos hb]; exact Or.inl rfl
  · rw [if_neg hb]
    have hinB : inB width height (cx + d.1, cy + d.2) := by
      unfold inB; push_neg at hb; exact ⟨by omega, by omega, by omega, by omega⟩
    rw [hidx]
    by_cases h1 : s.closed (idxOf width (cx + d.1, cy + d.2))
    · rw [if_pos h1]; exact Or.inl rfl
    · rw [if_neg h1]
      by_cases h2 : blocked (idxOf width (cx + d.1, cy + d.2))
      · rw [if_pos h2]; exact Or.inl rfl
      · rw [if_neg h2]
        by_cases h3 : zoc (idxOf width (cx, cy)) = true ∧
            zoc (idxOf width (cx + d.1, cy + d.2)) = false
        · rw [if_pos (by simpa using h3)]; exact Or.inl rfl
        · rw [if_neg (by simpa using h3)]
          by_cases h4 : moveCost grid costs (idxOf width (cx + d.1, cy + d.2)) = ⊤
          · rw [if_pos h4]; exact Or.inl rfl
          · rw [if_neg h4]
            by_cases h5 : (maxCost : Cost) < s.minCosts (idxOf width (cx, cy)) +
                moveCost grid costs (idxOf width (cx + d.1, cy + d.2))
            · rw [if_pos h5]; exact Or.inl rfl
            · rw [if_neg h5]
              by_cases h6 : s.minCosts (idxOf width (cx, cy)) +
                  moveCost grid costs (idxOf width (cx + d.1, cy + d.2)) <
                  s.minCosts (idxOf width (cx + d.1, cy + d.2))
              · rw [if_pos h6]
                exact Or.inr ⟨hinB, by simpa using h1, by simpa using h2, h3, h4,
                  not_lt.mp h5, h6, rfl⟩
              · rw [if_neg h6]; exact Or.inl rfl

theorem relaxReach_closed (s : RState) (cx cy cIdx : Int) (d : Int × Int) :
    (relaxReach width height grid costs blocked zoc maxCost cx cy cIdx s d).closed
      = s.closed := by
  unfold relaxReach
  dsimp only
  repeat' split
  all_goals rfl

theorem relaxReach_mono (s : RState) (cx cy : Int) (d : Int × Int) (i : Int) :
    (relaxReach width height grid costs blocked zoc maxCost cx cy
      (idxOf width (cx, cy)) s d).minCosts i ≤ s.minCosts i := by
  rcases relaxReach_cases width height grid costs blocked zoc maxCost s cx cy d with h | h
  · rw [h]
  · obtain ⟨_, _, _, _, _, _, hlt, heq⟩ := h
    rw [heq]
    dsimp only
    split
    · next hi => rw [hi]; exact le_of_lt hlt
    · exact le_refl _

theorem relaxReach_frozen (s : RState) (cx cy : Int) (d : Int × Int) (i : Int)
    (hcl : s.closed i = true) :
    (relaxReach width height grid costs blocked zoc maxCost cx cy
      (idxOf width (cx, cy)) s d).minCosts i = s.minCosts i := by
  rcases relaxReach_cases width height grid costs blocked zoc maxCost s cx cy d with h | h
  · rw [h]
  · obtain ⟨_, hncl, _, _, _, _, _, heq⟩ := h
    rw [heq]
    dsimp only
    split
    · next hi => rw [hi] at hcl; rw [hcl] at hncl; cases hncl
    · rfl

theorem RI_relax {s : RState} {cx cy : Int} {d : Int × Int}
    (hstart : inB width height (sx, sy))
    (hs : RI width height grid costs blocked zoc maxCost sx sy s)
    (hc : inB width height (cx, cy))
    (hd : d ∈ dirsFor cy) :
    RI width height grid costs blocked zoc maxCost sx sy
      (relaxReach width height grid costs blocked zoc maxCost cx cy
        (idxOf width (cx, cy)) s d) := by
  rcases relaxReach_cases width height grid costs blocked zoc maxCost s cx cy d with h | h
  · rw [h]; exact hs
  · obtain ⟨hinB, hncl, hnbl, hzoc, hmc, hbud, hlt, heq⟩ := h
    rw [heq]
    -- the current tile's cost is finite (else the budget check fails)
    have hfin : s.minCosts (idxOf width (cx, cy)) ≠ ⊤ := by
      intro htop
      rw [htop] at hbud
      rw [top_add] at hbud
      exact absurd (lt_of_le_of_lt hbud (WithTop.coe_lt_top maxCost)) (lt_irrefl _)
    obtain ⟨l, hchain, hend, hcost⟩ := hs.sound (cx, cy) hc hfin
    have hstep : rStepOk width height grid costs blocked zoc (cx, cy)
        (cx + d.1, cy + d.2) := by
      refine ⟨?_, hinB, hnbl, hmc, hzoc⟩
      simpa using hd
    constructor
    · -- coords
      intro e he
      dsimp only at he
      rcases mem_heap_push he with h' | h'
      · exact hs.coords e h'
      · rw [h']; exact hinB
    · -- sound
      intro t ht hfin'
      dsimp only at hfin' ⊢
      by_cases hteq : idxOf width t = idxOf width (cx + d.1, cy + d.2)
      · have : t = (cx + d.1, cy + d.2) := idxOf_inj width height ht hinB hteq
        subst this
        refine ⟨l ++ [(cx + d.1, cy + d.2)], ?_, ?_, ?_⟩
        · exact chainOk_append_one hchain (hend ▸ hstep)
        · exact chainEnd_append_one _ _ _
        · rw [pathCost_append_singleton, hcost, if_pos hteq]
      · rw [if_neg hteq] at hfin' ⊢
        exact hs.sound t ht hfin'
    · -- bounded
      intro t ht htne
      dsimp only
      by_cases hteq : idxOf width t = idxOf width (cx + d.1, cy + d.2)
      · rw [if_pos hteq]; exact Or.inr hbud
      · rw [if_neg hteq]; exact hs.bounded t ht htne
    · -- startVal
      dsimp only
      have hne : idxOf width (sx, sy) ≠ idxOf width (cx + d.1, cy + d.2) := by
        intro hcontra
        have hseq : (sx, sy) = (cx + d.1, cy + d.2) :=
          idxOf_inj width height hstart hinB hcontra
        -- the new cost is positive, but it would have to be below the start's 0
        have h0 : s.minCosts (idxOf width (sx, sy)) = 0 := hs.startVal
        rw [hcontra] at h0
        rw [h0] at hlt
        obtain ⟨p, hpchain, hpend, hpcost⟩ := hs.sound (cx, cy) hc hfin
        have hnn : 0 ≤ s.minCosts (idxOf width (cx, cy)) :=
          hpcost ▸ pathCost_nonneg width grid costs p
        have h1 : (1 : Cost) ≤ moveCost grid costs (idxOf width (cx + d.1, cy + d.2)) :=
          moveCost_ge_one grid costs _
        have : (0 : Cost) < s.minCosts (idxOf width (cx, cy)) +
            moveCost grid costs (idxOf width (cx + d.1, cy + d.2)) :=
          lt_of_lt_of_le (by norm_num : (0 : Cost) < 1)
            (le_add_of_nonneg_of_le hnn h1)
        exact absurd (lt_trans this hlt) (lt_irrefl _)
      rw [if_neg hne]
      exact hs.startVal

theorem fold_relax_closed (s : RState) (cx cy cIdx : Int) (dirs : List (Int × Int)) :
    (dirs.foldl (relaxReach width height grid costs blocked zoc maxCost cx cy cIdx) s).closed
      = s.closed := by
  refine foldl_preserve (P := fun st : RState => st.closed = s.closed) _ dirs s rfl ?_
  intro s' b _ hP
  rw [relaxReach_closed, hP]

theorem RI_reachStep (hstart : inB width height (sx, sy)) {s : RState}
    (hs : RI width height grid costs blocked zoc maxCost sx sy s)
    (hne : s.queue.nodes ≠ []) :
    RI width height grid costs blocked zoc maxCost sx sy
      (reachStep width height grid costs blocked zoc maxCost s) := by
  have hroot := heap_pop_root_mem hne
  have hcoord := hs.coords _ hroot
  have hs' : RI width height grid costs blocked zoc maxCost sx sy
      { s with queue := (heap_pop s.queue).2 } :=
    { coords := fun e he => hs.coords e (heap_pop_rest_subset he),
      sound := hs.sound, bounded := hs.bounded, startVal := hs.startVal }
  unfold reachStep
  dsimp only
  split
  · exact hs'
  · split
    · exact hs'
    · refine foldl_preserve
        (P := fun st => RI width height grid costs blocked zoc maxCost sx sy st) _ _ _ ?_ ?_
      · exact { coords := hs'.coords, sound := hs'.sound,
                bounded := hs'.bounded, startVal := hs'.startVal }
      · intro st d hd hP
        exact RI_relax width height grid costs blocked zoc maxCost sx sy hstart hP hcoord hd

theorem RI_reachLoop (hstart : inB width height (sx, sy)) :
    ∀ (fuel : Nat) (s : RState),
      RI width height grid costs blocked zoc maxCost sx sy s →
      RI width height grid costs blocked zoc maxCost sx sy
        (reachLoop width height grid costs blocked zoc maxCost fuel s) := by
  intro fuel
  induction fuel with
  | zero => intro s hs; exact hs
  | succ fuel ih =>
    intro s hs
    rw [reachLoop]
    split
    · exact hs
    · next hne => exact ih _ (RI_reachStep width height grid costs blocked zoc maxCost
        sx sy hstart hs hne)

theorem reachStep_mono (s : RState) (i : Int) :
    (reachStep width height grid costs blocked zoc maxCost s).minCosts i
      ≤ s.minCosts i := by
  unfold reachStep
  dsimp only
  split
  · exact le_refl _
  · split
    · exact le_refl _
    · refine foldl_preserve (P := fun st : RState => st.minCosts i ≤ s.minCosts i) _ _ _
        (le_refl _) ?_
      intro st d _ hP
      exact le_trans (relaxReach_mono width height grid costs blocked zoc maxCost st _ _ d i) hP

theorem reachStep_closed_mono (s : RState) (i : Int) (h : s.closed i = true) :
    (reachStep width height grid costs blocked zoc maxCost s).closed i = true := by
  unfold reachStep
  dsimp only
  split
  · exact h
  · split
    · exact h
    · rw [fold_relax_closed]
      dsimp only
      split
      · rfl
      · exact h

theorem reachStep_frozen (s : RState) (i : Int) (h : s.closed i = true) :
    (reachStep width height grid costs blocked zoc maxCost s).minCosts i
      = s.minCosts i := by
  unfold reachStep
  dsimp only
  split
  · rfl
  · split
    · rfl
    · have key : ∀ s'' : RState, s''.minCosts i = s.minCosts i → s''.closed i = true →
        (List.foldl (relaxReach width height grid costs blocked zoc maxCost
            (heap_pop s.queue).1.x (heap_pop s.queue).1.y
            ((heap_pop s.queue).1.y * width + (heap_pop s.queue).1.x)) s''
          (dirsFor (heap_pop s.queue).1.y)).minCosts i = s.minCosts i := by
        intro s'' h1 h2
        refine (foldl_preserve
          (P := fun st : RState => st.minCosts i = s.minCosts i ∧ st.closed i = true)
          _ _ _ ⟨h1, h2⟩ ?_).1
        intro st d _ hP
        refine ⟨?_, ?_⟩
        · exact Eq.trans
            (relaxReach_frozen width height grid costs blocked zoc maxCost
              st (heap_pop s.queue).1.x (heap_pop s.queue).1.y d i hP.2) hP.1
        · have hcl := relaxReach_closed width height grid costs blocked zoc maxCost
            st (heap_pop s.queue).1.x (heap_pop s.queue).1.y
            ((heap_pop s.queue).1.y * width + (heap_pop s.queue).1.x) d
          rw [hcl]
          exact hP.2
      apply key
      · rfl
      · dsimp only
        split
        · rfl
        · exact h

theorem reachLoop_mono : ∀ (fuel : Nat) (s : RState) (i : Int),
    (reachLoop width height grid costs blocked zoc maxCost fuel s).minCosts i
      ≤ s.minCosts i := by
  intro fuel
  induction fuel with
  | zero => intro s i; exact le_refl _
  | succ fuel ih =>
    intro s i
    rw [reachLoop]
    split
    · exact le_refl _
    · exact le_trans (ih _ i) (reachStep_mono width height grid costs blocked zoc maxCost s i)

theorem reachLoop_frozen : ∀ (fuel : Nat) (s : RState) (i : Int), s.closed i = true →
    (reachLoop width height grid costs blocked zoc maxCost fuel s).minCosts i
      = s.minCosts i ∧
    (reachLoop width height grid costs blocked zoc maxCost fuel s).closed i = true := by
  intro fuel
  induction fuel with
  | zero => intro s i h; exact ⟨rfl, h⟩
  | succ fuel ih =>
    intro s i h
    rw [reachLoop]
    split
    · exact ⟨rfl, h⟩
    · have h1 := reachStep_frozen width height grid costs blocked zoc maxCost s i h
      have h2 := reachStep_closed_mono width height grid costs blocked zoc maxCost s i h
      obtain ⟨ha, hb⟩ := ih _ i h2
      exact ⟨ha.trans h1, hb⟩

/-- A popped entry that is stale (priority above the recorded cost, or
tile already closed) is discarded with no state change beyond the pop. -/
theorem reachStep_stale (s : RState)
    (h : s.minCosts ((heap_pop s.queue).1.y * width + (heap_pop s.queue).1.x)
        < (heap_pop s.queue).1.priority ∨
      s.closed ((heap_pop s.queue).1.y * width + (heap_pop s.queue).1.x) = true) :
    reachStep width height grid costs blocked zoc maxCost s
      = { s with queue := (heap_pop s.queue).2 } := by
  unfold reachStep
  dsimp only
  split
  · rfl
  · next h1 =>
    split
    · rfl
    · next h2 =>
      rcases h with h' | h'
      · exact absurd h' h1
      · exact absurd h' h2

/-- When every guard passes, the relaxation records the new cost and
pushes the neighbour. -/
theorem relaxReach_update (s : RState) (cx cy : Int) (d : Int × Int)
    (hb : inB width height (cx + d.1, cy + d.2))
    (h1 : s.closed (idxOf width (cx + d.1, cy + d.2)) = false)
    (h2 : blocked (idxOf width (cx + d.1, cy + d.2)) = false)
    (h3 : ¬(zoc (idxOf width (cx, cy)) = true ∧
      zoc (idxOf width (cx + d.1, cy + d.2)) = false))
    (h4 : moveCost grid costs (idxOf width (cx + d.1, cy + d.2)) ≠ ⊤)
    (h5 : s.minCosts (idxOf width (cx, cy)) +
      moveCost grid costs (idxOf width (cx + d.1, cy + d.2)) ≤ (maxCost : Cost))
    (h6 : s.minCosts (idxOf width (cx, cy)) +
      moveCost grid costs (idxOf width (cx + d.1, cy + d.2)) <
      s.minCosts (idxOf width (cx + d.1, cy + d.2))) :
    relaxReach width height grid costs blocked zoc maxCost cx cy
      (idxOf width (cx, cy)) s d =
      { minCosts := fun i => if i = idxOf width (cx + d.1, cy + d.2) then
          s.minCosts (idxOf width (cx, cy)) +
            moveCost grid costs (idxOf width (cx + d.1, cy + d.2))
        else s.minCosts i,
        closed := s.closed,
        queue := heap_push s.queue (cx + d.1) (cy + d.2)
          (s.minCosts (idxOf width (cx, cy)) +
            moveCost grid costs (idxOf width (cx + d.1, cy + d.2))) } := by
  unfold relaxReach
  dsimp only
  obtain ⟨hb1, hb2, hb3, hb4⟩ := hb
  rw [if_neg (by push_neg; exact ⟨by omega, by omega, by omega, by omega⟩)]
  have hidx : (cy + d.2) * width + (cx + d.1) = idxOf width (cx + d.1, cy + d.2) := rfl
  rw [hidx, if_neg (by rw [h1]; exact Bool.false_ne_true),
    if_neg (by rw [h2]; exact Bool.false_ne_true),
    if_neg (by simpa using h3), if_neg h4, if_neg (not_lt.mpr h5), if_pos h6]

/-- After the first iteration of the search from an in-bounds start
outside ZoC, each admissible immediate neighbour is recorded exactly at
its own move cost. -/
theorem fold_first_value {s'' : RState} (cx cy : Int) {d : Int × Int}
    (hc : inB width height (cx, cy))
    (hr : inB width height (cx + d.1, cy + d.2))
    (hrs : (cx + d.1, cy + d.2) ≠ (cx, cy))
    (hclc : s''.closed (idxOf width (cx, cy)) = true)
    (hmcc : s''.minCosts (idxOf width (cx, cy)) = 0)
    (hclr : s''.closed (idxOf width (cx + d.1, cy + d.2)) = false)
    (hmcr : s''.minCosts (idxOf width (cx + d.1, cy + d.2)) = ⊤)
    (hz : zoc (idxOf width (cx, cy)) = false)
    (hbl : blocked (idxOf width (cx + d.1, cy + d.2)) = false)
    (hmc : moveCost grid costs (idxOf width (cx + d.1, cy + d.2)) ≠ ⊤)
    (hbud : moveCost grid costs (idxOf width (cx + d.1, cy + d.2)) ≤ (maxCost : Cost))
    {dirs : List (Int × Int)} (hd : d ∈ dirs) :
    (List.foldl (relaxReach width height grid costs blocked zoc maxCost cx cy
        (idxOf width (cx, cy))) s'' dirs).minCosts
      (idxOf width (cx + d.1, cy + d.2))
      = moveCost grid costs (idxOf width (cx + d.1, cy + d.2)) := by
  obtain ⟨l₁, l₂, rfl⟩ := List.append_of_mem hd
  rw [List.foldl_append]
  -- phase 1: before `d` is processed the target is `⊤` or already `mc`
  have phase1 : ∀ st : RState,
      (st.minCosts (idxOf width (cx + d.1, cy + d.2)) = ⊤ ∨
        st.minCosts (idxOf width (cx + d.1, cy + d.2)) =
          moveCost grid costs (idxOf width (cx + d.1, cy + d.2))) ∧
      st.minCosts (idxOf width (cx, cy)) = 0 ∧ st.closed = s''.closed →
      ∀ dl : List (Int × Int),
      (st.minCosts (idxOf width (cx + d.1, cy + d.2)) = ⊤ ∨ True) →
      ((List.foldl (relaxReach width height grid costs blocked zoc maxCost cx cy
          (idxOf width (cx, cy))) st dl).minCosts (idxOf width (cx + d.1, cy + d.2)) = ⊤ ∨
        (List.foldl (relaxReach width height grid costs blocked zoc maxCost cx cy
          (idxOf width (cx, cy))) st dl).minCosts (idxOf width (cx + d.1, cy + d.2)) =
          moveCost grid costs (idxOf width (cx + d.1, cy + d.2))) ∧
      (List.foldl (relaxReach width height grid costs blocked zoc maxCost cx cy
          (idxOf width (cx, cy))) st dl).minCosts (idxOf width (cx, cy)) = 0 ∧
      (List.foldl (relaxReach width height grid costs blocked zoc maxCost cx cy
          (idxOf width (cx, cy))) st dl).closed = s''.closed := by
    intro st hst dl _
    refine foldl_preserve (P := fun st : RState =>
      (st.minCosts (idxOf width (cx + d.1, cy + d.2)) = ⊤ ∨
        st.minCosts (idxOf width (cx + d.1, cy + d.2)) =
          moveCost grid costs (idxOf width (cx + d.1, cy + d.2))) ∧
      st.minCosts (idxOf width (cx, cy)) = 0 ∧ st.closed = s''.closed) _ dl st hst ?_
    intro st' d' _ hP
    obtain ⟨hPr, hPc, hPcl⟩ := hP
    rcases relaxReach_cases width height grid costs blocked zoc maxCost st' cx cy d'
      with hcase | hcase
    · rw [hcase]; exact ⟨hPr, hPc, hPcl⟩
    · obtain ⟨hinB, hncl, _, _, _, _, hlt, heq⟩ := hcase
      rw [heq]
      dsimp only
      have hcne : idxOf width (cx, cy) ≠ idxOf width (cx + d'.1, cy + d'.2) := by
        intro hcontra
        rw [hPcl, ← hcontra, hclc] at hncl
        cases hncl
      refine ⟨?_, by rw [if_neg hcne]; exact hPc, hPcl⟩
      by_cases hre : idxOf width (cx + d.1, cy + d.2) = idxOf width (cx + d'.1, cy + d'.2)
      · have : (cx + d.1, cy + d.2) = (cx + d'.1, cy + d'.2) :=
          idxOf_inj width height hr hinB hre
        right
        rw [if_pos hre, hPc, zero_add]
        rw [← hre]
      · rw [if_neg hre]; exact hPr
  -- phase 2: processing `d` leaves the target exactly at `mc`
  have hstep1 := phase1 s'' ⟨Or.inl hmcr, hmcc, rfl⟩ l₁ (Or.inl hmcr)
  obtain ⟨hv, hc0, hcl⟩ := hstep1
  set st₁ := List.foldl (relaxReach width height grid costs blocked zoc maxCost cx cy
    (idxOf width (cx, cy))) s'' l₁ with hst₁
  have hafter : (relaxReach width height grid costs blocked zoc maxCost cx cy
      (idxOf width (cx, cy)) st₁ d).minCosts (idxOf width (cx + d.1, cy + d.2)) =
      moveCost grid costs (idxOf width (cx + d.1, cy + d.2)) ∧
      (relaxReach width height grid costs blocked zoc maxCost cx cy
      (idxOf width (cx, cy)) st₁ d).minCosts (idxOf width (cx, cy)) = 0 ∧
      (relaxReach width height grid costs blocked zoc maxCost cx cy
      (idxOf width (cx, cy)) st₁ d).closed = s''.closed := by
    rcases hv with hv | hv
    · have hupd := relaxReach_update width height grid costs blocked zoc maxCost st₁ cx cy d
        hr (by rw [hcl]; exact hclr) hbl (by rw [hz]; simp) hmc
        (by rw [hc0, zero_add]; exact hbud)
        (by rw [hc0, zero_add, hv]; exact lt_top_iff_ne_top.mpr hmc)
      rw [hupd]
      dsimp only
      refine ⟨by rw [if_pos rfl, hc0, zero_add], ?_, hcl⟩
      have hcne : idxOf width (cx, cy) ≠ idxOf width (cx + d.1, cy + d.2) := by
        intro hcontra
        exact hrs (idxOf_inj width height hr hc hcontra.symm)
      rw [if_neg hcne]; exact hc0
    · rcases relaxReach_cases width height grid costs blocked zoc maxCost st₁ cx cy d
        with hcase | hcase
      · rw [hcase]; exact ⟨hv, hc0, hcl⟩
      · obtain ⟨hinB, hncl, _, _, _, _, hlt, heq⟩ := hcase
        rw [hc0, zero_add, hv] at hlt
        exact absurd hlt (lt_irrefl _)
  -- phase 3: the remaining directions leave the value unchanged
  obtain ⟨hA, hB, hC⟩ := hafter
  refine (foldl_preserve (P := fun st : RState =>
    st.minCosts (idxOf width (cx + d.1, cy + d.2)) =
      moveCost grid costs (idxOf width (cx + d.1, cy + d.2)) ∧
    st.minCosts (idxOf width (cx, cy)) = 0 ∧ st.closed = s''.closed) _ l₂ _
    ⟨hA, hB, hC⟩ ?_).1
  intro st' d' _ hP
  obtain ⟨hPr, hPc, hPcl⟩ := hP
  rcases relaxReach_cases width height grid costs blocked zoc maxCost st' cx cy d'
    with hcase | hcase
  · rw [hcase]; exact ⟨hPr, hPc, hPcl⟩
  · obtain ⟨hinB, hncl, _, _, _, _, hlt, heq⟩ := hcase
    have hcne : idxOf width (cx, cy) ≠ idxOf width (cx + d'.1, cy + d'.2) := by
      intro hcontra
      rw [hPcl, ← hcontra, hclc] at hncl
      cases hncl
    rw [heq]
    dsimp only
    by_cases hre : idxOf width (cx + d.1, cy + d.2) = idxOf width (cx + d'.1, cy + d'.2)
    · exfalso
      rw [← hre, hPr, hPc, zero_add] at hlt
      exact absurd hlt (lt_irrefl _)
    · exact ⟨by rw [if_neg hre]; exact hPr, by rw [if_neg hcne]; exact hPc, hPcl⟩

/-- Membership in the result dictionary of `c_find_reachable`. -/
theorem mem_c_find_reachable (p : Int × Int) (v : Cost) :
    (p, v) ∈ c_find_reachable width height grid costs sx sy blocked maxCost zoc ↔
    inB width height p ∧
      (reachFinal width height grid costs sx sy blocked maxCost zoc).minCosts
        (idxOf width p) ≤ (maxCost : Cost) ∧
      v = (reachFinal width height grid costs sx sy blocked maxCost zoc).minCosts
        (idxOf width p) := by
  unfold c_find_reachable
  rw [List.mem_flatMap]
  constructor
  · rintro ⟨y, hy, hmem⟩
    rw [List.mem_filterMap] at hmem
    obtain ⟨x, hx, hif⟩ := hmem
    rw [List.mem_range] at hy hx
    split at hif
    · next hcond =>
      obtain ⟨hp, hv⟩ := Prod.mk.injEq .. ▸ Option.some_inj.mp hif
      have hxw : (x : Int) < width := by omega
      have hyh : (y : Int) < height := by omega
      have hpeq : p = ((x : Int), (y : Int)) := hp.symm
      subst hpeq
      refine ⟨⟨by omega, hxw, by omega, hyh⟩, ?_, hv.symm⟩
      exact hcond
    · cases hif
  · rintro ⟨hp, hle, hv⟩
    obtain ⟨h1, h2, h3, h4⟩ := hp
    refine ⟨p.2.toNat, ?_, ?_⟩
    · rw [List.mem_range]; omega
    · rw [List.mem_filterMap]
      refine ⟨p.1.toNat, by rw [List.mem_range]; omega, ?_⟩
      have hx : (p.1.toNat : Int) = p.1 := Int.toNat_of_nonneg h1
      have hy : (p.2.toNat : Int) = p.2 := Int.toNat_of_nonneg h3
      have hidx : (p.2.toNat : Int) * width + (p.1.toNat : Int) = idxOf width p := by
        rw [hx, hy]; rfl
      rw [hidx, if_pos hle, hx, hy, ← hv]

/-- The start tile is always reported at cost `0` when the budget is
non-negative, with no check of the blocked set or of the start's
terrain. -/
theorem reach_start_mem
    (hstart : inB width height (sx, sy)) (hmc : 0 ≤ maxCost) :
    ((sx, sy), (0 : Cost)) ∈
      c_find_reachable width height grid costs sx sy blocked maxCost zoc := by
  have hguard := idxOf_range width height hstart
  have hfin : reachFinal width height grid costs sx sy blocked maxCost zoc =
      reachLoop width height grid costs blocked zoc maxCost
        (loopFuel width height) (reachInit width height sx sy) := by
    unfold reachFinal
    rw [if_pos]
    exact hguard
  have hRI := RI_reachLoop width height grid costs blocked zoc maxCost sx sy hstart
    (loopFuel width height) _
    (RI_init width height grid costs blocked zoc maxCost sx sy hstart)
  rw [mem_c_find_reachable]
  refine ⟨hstart, ?_, ?_⟩
  · rw [hfin, hRI.startVal]
    exact_mod_cast hmc
  · rw [hfin, hRI.startVal]

theorem reachInit_queue (hN : 0 < (width * height).toNat) :
    (reachInit width height sx sy).queue
      = ⟨[⟨sx, sy, 0⟩], (width * height).toNat⟩ := by
  unfold reachInit heap_push create_heap
  dsimp only
  rw [if_neg (by simp; omega)]
  rfl

theorem heap_pop_singleton (n : Node) (c : Nat) :
    heap_pop ⟨[n], c⟩ = (n, ⟨[], c⟩) := by
  unfold heap_pop
  rw [if_neg (by simp)]
  rfl

/-- Value recorded for an admissible immediate neighbour of the start
after the first loop iteration: exactly its own move cost. -/
theorem reachStep_init_value
    (hstart : inB width height (sx, sy))
    (hz : zoc (idxOf width (sx, sy)) = false)
    {d : Int × Int} (hd : d ∈ dirsFor sy)
    (hr : inB width height (sx + d.1, sy + d.2))
    (hrs : (sx + d.1, sy + d.2) ≠ (sx, sy))
    (hbl : blocked (idxOf width (sx + d.1, sy + d.2)) = false)
    (hmcf : moveCost grid costs (idxOf width (sx + d.1, sy + d.2)) ≠ ⊤)
    (hbud : moveCost grid costs (idxOf width (sx + d.1, sy + d.2)) ≤ (maxCost : Cost)) :
    (reachStep width height grid costs blocked zoc maxCost
      (reachInit width height sx sy)).minCosts (idxOf width (sx + d.1, sy + d.2))
      = moveCost grid costs (idxOf width (sx + d.1, sy + d.2)) := by
  have hN : 0 < (width * height).toNat := by
    obtain ⟨h1, h2, h3, h4⟩ := hstart
    have : 0 < width * height := by nlinarith
    omega
  have hrne : idxOf width (sx + d.1, sy + d.2) ≠ idxOf width (sx, sy) := by
    intro hcontra
    exact hrs (idxOf_inj width height hr hstart hcontra)
  unfold reachStep
  rw [reachInit_queue width height sx sy hN, heap_pop_singleton]
  dsimp only
  have hmin0 : (reachInit width height sx sy).minCosts (sy * width + sx) = 0 := by
    unfold reachInit; dsimp only; rw [if_pos rfl]
  rw [if_neg (by rw [hmin0]; exact not_lt.mpr (le_refl _))]
  rw [if_neg (by unfold reachInit; dsimp only; exact Bool.false_ne_true)]
  have hrne' : idxOf width (sx + d.1, sy + d.2) ≠ sy * width + sx := hrne
  have happly := @fold_first_value width height grid costs blocked zoc maxCost
    { minCosts := (reachInit width height sx sy).minCosts,
      closed := fun i => if i = sy * width + sx then true
        else (reachInit width height sx sy).closed i,
      queue := ⟨[], (width * height).toNat⟩ }
    sx sy d hstart hr hrs
    (by dsimp only
        rw [if_pos (show idxOf width (sx, sy) = sy * width + sx from rfl)])
    (by dsimp only; exact hmin0)
    (by dsimp only
        rw [if_neg hrne']
        rfl)
    (by show (reachInit width height sx sy).minCosts (idxOf width (sx + d.1, sy + d.2)) = ⊤
        unfold reachInit
        dsimp only
        rw [if_neg hrne'])
    hz hbl hmcf hbud (dirsFor sy) hd
  exact happly

/-- The final state of `c_find_reachable` satisfies the loop invariant
for an in-bounds start. -/
theorem RI_final (hstart : inB width height (sx, sy)) :
    RI width height grid costs blocked zoc maxCost sx sy
      (reachFinal width height grid costs sx sy blocked maxCost zoc) := by
  unfold reachFinal
  have hguard : 0 ≤ sy * width + sx ∧ sy * width + sx < width * height :=
    idxOf_range width height hstart
  rw [if_pos hguard]
  exact RI_reachLoop width height grid costs blocked zoc maxCost sx sy hstart _ _
    (RI_init width height grid costs blocked zoc maxCost sx sy hstart)

end ReachInv

theorem chainEnd_mem {c : Int × Int} {l : List (Int × Int)} (h : l ≠ []) :
    chainEnd c l ∈ l := by
  unfold chainEnd
  rw [List.getLast?_eq_getLast_of_ne_nil h]
  exact List.getLast_mem h

/-- C2 helper: in a permitted chain from a non-ZoC start whose in-bounds
hex neighbours are all ZoC, every visited tile is the start or a ZoC
tile. -/
theorem chain_all_zoc (width height : Int) (grid : Int → Int) (costs : Int → Cost)
    (blocked zoc : Int → Bool) (sx sy : Int)
    (hring : ∀ d ∈ dirsFor sy, inB width height (sx + d.1, sy + d.2) →
      zoc (idxOf width (sx + d.1, sy + d.2)) = true)
    {l : List (Int × Int)}
    (hchain : chainOk (rStepOk width height grid costs blocked zoc) (sx, sy) l) :
    ∀ t ∈ l, zoc (idxOf width t) = true ∨ t = (sx, sy) := by
  intro t ht
  refine chainOk_all (P := fun u => zoc (idxOf width u) = true ∨ u = (sx, sy))
    hchain (Or.inr rfl) ?_ t ht
  intro a b hR hPa
  obtain ⟨hdir, hbIn, _, _, hzoc⟩ := hR
  rcases hPa with hza | hae
  · left
    by_cases hzb : zoc (idxOf width b) = true
    · exact hzb
    · exact absurd ⟨hza, by simpa using hzb⟩ hzoc
  · left
    subst hae
    dsimp only at hdir
    have hb2 : (sx + (b.1 - sx), sy + (b.2 - sy)) = b := by
      refine Prod.ext ?_ ?_ <;> dsimp only <;> ring
    have hz' := hring (b.1 - sx, b.2 - sy) hdir
    rw [hb2] at hz'
    exact hz' hbIn

/-- **C4**: for an in-bounds start and non-negative budget,
`findReachable` reports the start at cost `0`, and every reported tile
carries a cost that is at most the budget and is realised by a permitted
path of exactly that cost — so no tile whose true minimal cost exceeds
the budget is ever reported. -/
theorem claim_C4 (width height : Int) (grid : Int → Int) (costs : Int → Cost)
    (blocked zoc : Int → Bool) (maxCost : ℚ) (sx sy : Int)
    (hstart : inB width height (sx, sy)) (hmc : 0 ≤ maxCost) :
    ((sx, sy), (0 : Cost)) ∈
      c_find_reachable width height grid costs sx sy blocked maxCost zoc ∧
    ∀ (p : Int × Int) (v : Cost),
      (p, v) ∈ c_find_reachable width height grid costs sx sy blocked maxCost zoc →
      v ≤ (maxCost : Cost) ∧
      ∃ l, chainOk (rStepOk width height grid costs blocked zoc) (sx, sy) l ∧
        chainEnd (sx, sy) l = p ∧ pathCost width grid costs l = v := by
  refine ⟨reach_start_mem width height grid costs blocked zoc maxCost sx sy hstart hmc, ?_⟩
  intro p v hmem
  rw [mem_c_find_reachable] at hmem
  obtain ⟨hp, hle, hv⟩ := hmem
  have hRI := RI_final width height grid costs blocked zoc maxCost sx sy hstart
  have hfin : (reachFinal width height grid costs sx sy blocked maxCost zoc).minCosts
      (idxOf width p) ≠ ⊤ :=
    ne_top_of_le_ne_top (WithTop.coe_ne_top) hle
  obtain ⟨l, h1, h2, h3⟩ := hRI.sound p hp hfin
  exact ⟨hv ▸ hle, l, h1, h2, by rw [h3, ← hv]⟩

/-- Witness for C4 at a concrete instance. -/
theorem claim_C4_witness :
    inB 2 2 ((0 : Int), (0 : Int)) ∧ (0 : ℚ) ≤ 3 ∧
    (((0 : Int), (0 : Int)), (0 : Cost)) ∈
      c_find_reachable 2 2 (fun _ => 0) (fun _ => 1) 0 0 (fun _ => false) 3 (fun _ => false) :=
  ⟨by decide, by norm_num,
    (claim_C4 2 2 (fun _ => 0) (fun _ => 1) (fun _ => false) (fun _ => false) 3 0 0
      (by decide) (by norm_num)).1⟩

/-- **C2**: the reachability engine never takes a move from a ZoC tile to
a non-ZoC tile; consequently, for a start outside ZoC whose in-bounds hex
neighbours are all ZoC, every open (non-ZoC) tile other than the start is
absent from the result, while each admissible ring tile appears at its
direct move cost. -/
theorem claim_C2 (width height : Int) (grid : Int → Int) (costs : Int → Cost)
    (blocked zoc : Int → Bool) (maxCost : ℚ) (sx sy : Int)
    (hstart : inB width height (sx, sy))
    (hz : zoc (idxOf width (sx, sy)) = false)
    (hring : ∀ d ∈ dirsFor sy, inB width height (sx + d.1, sy + d.2) →
      zoc (idxOf width (sx + d.1, sy + d.2)) = true) :
    (∀ (s : RState) (cx cy : Int) (d : Int × Int),
      zoc (idxOf width (cx, cy)) = true →
      zoc (idxOf width (cx + d.1, cy + d.2)) = false →
      relaxReach width height grid costs blocked zoc maxCost cx cy
        (idxOf width (cx, cy)) s d = s) ∧
    (∀ t : Int × Int, inB width height t → zoc (idxOf width t) = false →
      t ≠ (sx, sy) → ∀ v : Cost,
      (t, v) ∉ c_find_reachable width height grid costs sx sy blocked maxCost zoc) ∧
    (∀ d ∈ dirsFor sy, inB width height (sx + d.1, sy + d.2) →
      blocked (idxOf width (sx + d.1, sy + d.2)) = false →
      moveCost grid costs (idxOf width (sx + d.1, sy + d.2)) ≠ ⊤ →
      moveCost grid costs (idxOf width (sx + d.1, sy + d.2)) ≤ (maxCost : Cost) →
      ((sx + d.1, sy + d.2), moveCost grid costs (idxOf width (sx + d.1, sy + d.2))) ∈
        c_find_reachable width height grid costs sx sy blocked maxCost zoc) := by
  have hN : 0 < (width * height).toNat := by
    obtain ⟨h1, h2, h3, h4⟩ := hstart
    have : 0 < width * height := by nlinarith
    omega
  refine ⟨?_, ?_, ?_⟩
  · -- a ZoC-to-open move is never taken
    intro s cx cy d hzc hzn
    rcases relaxReach_cases width height grid costs blocked zoc maxCost s cx cy d
      with h | h
    · exact h
    · exact absurd ⟨hzc, hzn⟩ h.2.2.2.1
  · -- open tiles other than the start are unreachable
    intro t ht htz htne v hmem
    rw [mem_c_find_reachable] at hmem
    obtain ⟨hp, hle, hv⟩ := hmem
    have hRI := RI_final width height grid costs blocked zoc maxCost sx sy hstart
    have hfin : (reachFinal width height grid costs sx sy blocked maxCost zoc).minCosts
        (idxOf width t) ≠ ⊤ :=
      ne_top_of_le_ne_top (WithTop.coe_ne_top) hle
    obtain ⟨l, h1, h2, h3⟩ := hRI.sound t ht hfin
    have hlne : l ≠ [] := by
      intro hemp
      rw [hemp] at h2
      exact htne (by rw [← h2]; rfl)
    have htl : t ∈ l := h2 ▸ chainEnd_mem hlne
    rcases chain_all_zoc width height grid costs blocked zoc sx sy hring h1 t htl
      with h' | h'
    · rw [htz] at h'; cases h'
    · exact htne h'
  · -- ring tiles appear at their direct cost
    intro d hd hr hbl hmcf hbud
    have hrs : (sx + d.1, sy + d.2) ≠ (sx, sy) := by
      intro hcontra
      have := hring d hd hr
      rw [hcontra, hz] at this
      cases this
    have hguard : 0 ≤ sy * width + sx ∧ sy * width + sx < width * height :=
      idxOf_range width height hstart
    have hfe : reachFinal width height grid costs sx sy blocked maxCost zoc =
        reachLoop width height grid costs blocked zoc maxCost
          (loopFuel width height) (reachInit width height sx sy) := by
      unfold reachFinal
      rw [if_pos hguard]
    have hfuel : loopFuel width height = (1 + 7 * (width * height).toNat) + 1 := by
      unfold loopFuel; omega
    have hne : (reachInit width height sx sy).queue.nodes ≠ [] := by
      rw [reachInit_queue width height sx sy hN]; simp
    have hstep1 : reachLoop width height grid costs blocked zoc maxCost
        (loopFuel width height) (reachInit width height sx sy) =
        reachLoop width height grid costs blocked zoc maxCost
          (1 + 7 * (width * height).toNat)
          (reachStep width height grid costs blocked zoc maxCost
            (reachInit width height sx sy)) := by
      rw [hfuel, reachLoop, if_neg hne]
    have hub : (reachFinal width height grid costs sx sy blocked maxCost zoc).minCosts
        (idxOf width (sx + d.1, sy + d.2)) ≤
        moveCost grid costs (idxOf width (sx + d.1, sy + d.2)) := by
      rw [hfe, hstep1]
      calc (reachLoop width height grid costs blocked zoc maxCost
              (1 + 7 * (width * height).toNat)
              (reachStep width height grid costs blocked zoc maxCost
                (reachInit width height sx sy))).minCosts
            (idxOf width (sx + d.1, sy + d.2))
          ≤ (reachStep width height grid costs blocked zoc maxCost
              (reachInit width height sx sy)).minCosts
            (idxOf width (sx + d.1, sy + d.2)) :=
            reachLoop_mono width height grid costs blocked zoc maxCost _ _ _
        _ = moveCost grid costs (idxOf width (sx + d.1, sy + d.2)) :=
            reachStep_init_value width height grid costs blocked zoc maxCost sx sy
              hstart hz hd hr hrs hbl hmcf hbud
    have hRI := RI_final width height grid costs blocked zoc maxCost sx sy hstart
    have hfin : (reachFinal width height grid costs sx sy blocked maxCost zoc).minCosts
        (idxOf width (sx + d.1, sy + d.2)) ≠ ⊤ :=
      ne_top_of_le_ne_top hmcf hub
    obtain ⟨l, h1, h2, h3⟩ := hRI.sound (sx + d.1, sy + d.2) hr hfin
    have hlne : l ≠ [] := by
      intro hemp
      rw [hemp] at h2
      exact hrs (by rw [← h2]; rfl)
    have htl : (sx + d.1, sy + d.2) ∈ l := h2 ▸ chainEnd_mem hlne
    have hlb : moveCost grid costs (idxOf width (sx + d.1, sy + d.2)) ≤
        (reachFinal width height grid costs sx sy blocked maxCost zoc).minCosts
          (idxOf width (sx + d.1, sy + d.2)) := by
      rw [← h3]
      exact pathCost_ge_mem width grid costs htl
    have hveq := le_antisymm hub hlb
    rw [mem_c_find_reachable]
    exact ⟨hr, hveq ▸ hbud, hveq.symm⟩

/-- Witness for C2 at a concrete instance: a 3×3 grid whose centre is the
start and every other tile is ZoC. -/
theorem claim_C2_witness :
    inB 3 3 ((1 : Int), (1 : Int)) ∧
    (fun i => decide (i ≠ (4 : Int))) (idxOf 3 (1, 1)) = false ∧
    (∀ (s : RState) (cx cy : Int) (d : Int × Int),
      (fun i => decide (i ≠ (4 : Int))) (idxOf 3 (cx, cy)) = true →
      (fun i => decide (i ≠ (4 : Int))) (idxOf 3 (cx + d.1, cy + d.2)) = false →
      relaxReach 3 3 (fun _ => 0) (fun _ => 1) (fun _ => false)
        (fun i => decide (i ≠ (4 : Int))) 10 cx cy (idxOf 3 (cx, cy)) s d = s) := by
  refine ⟨by decide, by decide, ?_⟩
  exact (claim_C2 3 3 (fun _ => 0) (fun _ => 1) (fun _ => false)
    (fun i => decide (i ≠ (4 : Int))) 10 1 1 (by decide) (by decide) (by decide)).1

/-- **C10**: neither engine checks the start against the blocked set or
impassable terrain — `findReachable` still reports a blocked or
infinite-terrain in-bounds start at cost `0`, and `findPath` can return
a path that leaves a blocked start tile. -/
theorem claim_C10 :
    (∀ (width height : Int) (grid : Int → Int) (costs : Int → Cost)
      (blocked zoc : Int → Bool) (maxCost : ℚ) (sx sy : Int),
      inB width height (sx, sy) → 0 ≤ maxCost →
      (blocked (idxOf width (sx, sy)) = true ∨
        moveCost grid costs (idxOf width (sx, sy)) = ⊤) →
      ((sx, sy), (0 : Cost)) ∈
        c_find_reachable width height grid costs sx sy blocked maxCost zoc) ∧
    c_find_path 2 2 (fun _ => 0) (fun _ => (1 : Cost)) 0 0 1 1
      (fun i => decide (i = 0)) (-1) = some [(1, 0), (1, 1)] := by
  constructor
  · intro width height grid costs blocked zoc maxCost sx sy hstart hmc _
    exact reach_start_mem width height grid costs blocked zoc maxCost sx sy hstart hmc
  · with_unfolding_all rfl

/-- Witness for C10's universally quantified part at a concrete instance
with a blocked start. -/
theorem claim_C10_witness :
    inB 2 2 ((0 : Int), (0 : Int)) ∧ (0 : ℚ) ≤ 5 ∧
    (fun i => decide (i = (0 : Int))) (idxOf 2 (0, 0)) = true ∧
    (((0 : Int), (0 : Int)), (0 : Cost)) ∈
      c_find_reachable 2 2 (fun _ => 0) (fun _ => 1) 0 0
        (fun i => decide (i = (0 : Int))) 5 (fun _ => false) :=
  ⟨by decide, by norm_num, by decide,
    claim_C10.1 2 2 (fun _ => 0) (fun _ => 1) (fun i => decide (i = (0 : Int)))
      (fun _ => false) 5 0 0 (by decide) (by norm_num) (Or.inl (by decide))⟩

/-- **C6** (amended): `findPath` returns the null "no path" result for
every start whose linear index `sy*width+sx` lies outside
`[0, width*height)`; a start with out-of-range coordinates whose linear
index falls inside that interval is treated as the tile at that index
and can produce a path. -/
theorem claim_C6 (width height : Int) (grid : Int → Int) (costs : Int → Cost)
    (sx sy ex ey : Int) (blocked : Int → Bool) (maxCost : ℚ)
    (h : ¬ (0 ≤ sy * width + sx ∧ sy * width + sx < width * height)) :
    c_find_path width height grid costs sx sy ex ey blocked maxCost = none := by
  unfold c_find_path
  rw [if_neg h]

/-- Counterexample to C6 as stated: the start `(-1, 1)` lies outside the
`2 × 2` grid, yet its linear index `1*2+(-1) = 1` is in range and
`findPath` returns the (non-null) path `[(0, 0)]` to the goal. -/
theorem claim_C6_counterexample :
    ¬ inB 2 2 ((-1 : Int), (1 : Int)) ∧
    c_find_path 2 2 (fun _ => 0) (fun _ => (1 : Cost)) (-1) 1 0 0
      (fun _ => false) (-1) = some [(0, 0)] :=
  ⟨by decide, by with_unfolding_all rfl⟩

/-- Witness for the amended C6 at a concrete instance. -/
theorem claim_C6_witness :
    ¬ (0 ≤ (0 : Int) * 2 + (-5 : Int) ∧ (0 : Int) * 2 + (-5 : Int) < 2 * 2) ∧
    c_find_path 2 2 (fun _ => 0) (fun _ => (1 : Cost)) (-5) 0 1 1
      (fun _ => false) (-1) = none :=
  ⟨by decide,
    claim_C6 2 2 (fun _ => 0) (fun _ => (1 : Cost)) (-5) 0 1 1
      (fun _ => false) (-1) (by decide)⟩

/-- **C9**: `heap_push` on a full heap silently discards the entry and
leaves the heap unchanged, and both search engines create their queue
with capacity exactly `width*height` (as a machine size,
`(width*height).toNat`), so queued candidates can be lost once
`width*height` entries are simultaneously stored. -/
theorem claim_C9 :
    (∀ (hp : MinHeap) (x y : Int) (p : Cost), hp.capacity ≤ hp.nodes.length →
      heap_push hp x y p = hp) ∧
    (∀ c : Nat, (create_heap c).capacity = c) ∧
    (∀ width height sx sy ex ey : Int,
      (pathInit width height sx sy ex ey).openSet.capacity = (width * height).toNat) ∧
    (∀ width height sx sy : Int,
      (reachInit width height sx sy).queue.capacity = (width * height).toNat) := by
  refine ⟨?_, fun c => rfl, ?_, ?_⟩
  · intro hp x y p h
    unfold heap_push
    rw [if_pos h]
  · intro width height sx sy ex ey
    unfold pathInit
    dsimp only
    rw [heap_push_capacity]
    rfl
  · intro width height sx sy
    unfold reachInit
    dsimp only
    rw [heap_push_capacity]
    rfl

/-- Witness for C9's full-heap push at a concrete heap of capacity 1. -/
theorem claim_C9_witness :
    (⟨[sentinelNode], 1⟩ : MinHeap).capacity ≤
      (⟨[sentinelNode], 1⟩ : MinHeap).nodes.length ∧
    heap_push ⟨[sentinelNode], 1⟩ 5 5 0 = ⟨[sentinelNode], 1⟩ :=
  ⟨by decide, claim_C9.1 ⟨[sentinelNode], 1⟩ 5 5 0 (by decide)⟩

/-! ## Path engine invariants -/

theorem siftDown_length : ∀ (fuel : Nat) (l : List Node) (i : Nat),
    (siftDown fuel l i).length = l.length := by
  intro fuel
  induction fuel with
  | zero => intro l i; rfl
  | succ fuel ih =>
    intro l i
    rw [siftDown]
    split
    · rw [ih, lswap_length]
    · rfl

theorem heap_pop_length {h : MinHeap} (hne : h.nodes ≠ []) :
    (heap_pop h).2.nodes.length = h.nodes.length - 1 := by
  unfold heap_pop
  rw [if_neg hne]
  dsimp only
  rw [siftDown_length]
  simp

theorem gMeasure_lt (width height : Int) (g : Int → Cost) {i j : Int}
    (hij : g j < g i) (hj : 0 ≤ j ∧ j < width * height) :
    gMeasure width height g j < gMeasure width height g i := by
  apply Finset.card_lt_card
  rw [Finset.ssubset_def]
  constructor
  · intro a ha
    rw [Finset.mem_filter] at ha ⊢
    exact ⟨ha.1, lt_trans ha.2 hij⟩
  · intro hsub
    have hjmem : j ∈ (Finset.Icc 0 (width * height - 1)).filter (fun k => g k < g i) := by
      rw [Finset.mem_filter, Finset.mem_Icc]
      exact ⟨⟨hj.1, by omega⟩, hij⟩
    have hj2 := hsub hjmem
    rw [Finset.mem_filter] at hj2
    exact absurd hj2.2 (lt_irrefl _)

theorem gMeasure_le (width height : Int) (g : Int → Cost) (i : Int) :
    gMeasure width height g i ≤ (width * height).toNat := by
  unfold gMeasure
  calc ((Finset.Icc 0 (width * height - 1)).filter (fun j => g j < g i)).card
      ≤ (Finset.Icc (0 : Int) (width * height - 1)).card := Finset.card_filter_le _ _
    _ = (width * height).toNat := by
        rw [Int.card_Icc]
        congr 1
        ring

theorem buildPath_succ (width startIdx : Int) (parents : Int → Int)
    (fuel : Nat) (curr : Int) (acc : List (Int × Int)) :
    buildPath width startIdx parents (fuel + 1) curr acc =
      if curr = startIdx then acc
      else buildPath width startIdx parents fuel (parents curr)
        ((curr % width, curr / width) :: acc) := by
  rw [buildPath]

section PathInv

variable (width height : Int) (grid : Int → Int) (costs : Int → Cost)
variable (blocked : Int → Bool) (ex ey : Int) (maxCost : ℚ) (sx sy : Int)

theorem PI_init :
    PI width height grid costs blocked ex ey sx sy
      (pathInit width height sx sy ex ey) := by
  have hq : ∀ e ∈ (pathInit width height sx sy ex ey).openSet.nodes,
      e = ⟨sx, sy, hexH sx sy ex ey⟩ := by
    intro e he
    unfold pathInit at he
    rcases mem_heap_push he with h' | h'
    · cases h'
    · exact h'
  constructor
  · intro e he
    rw [hq e he]
    exact Or.inr rfl
  · intro e he
    rw [hq e he]
    unfold pathInit
    dsimp only
    rw [if_pos rfl]
    exact WithTop.zero_ne_top
  · intro e he _
    rw [hq e he]
  · intro _
    refine ⟨fun e he => by rw [hq e he], ?_⟩
    unfold pathInit heap_push create_heap
    dsimp only
    split
    · simp
    · rw [show siftUp ([] : List Node).length ([] ++ [⟨sx, sy, hexH sx sy ex ey⟩])
          ([] : List Node).length = [⟨sx, sy, hexH sx sy ex ey⟩] from rfl]
      simp
  · intro _ i
    unfold pathInit
    rfl
  · intro _ e he
    intro hc
    have := hq e he
    rw [this] at hc
    -- the start entry popped as goal is handled by the loop lemmas; here
    -- nothing is closed yet, so the hypothesis is absurd
    · exact absurd (by unfold pathInit; rfl :
        (pathInit width height sx sy ex ey).closed (ey * width + ex) = false)
        (by simp_all)
  · unfold pathInit
    dsimp only
    rw [if_pos rfl]
  · intro i
    unfold pathInit
    dsimp only
    split
    · exact le_refl 0 |>.trans (by norm_num)
    · exact le_top
  · intro t ht htne hg
    exfalso
    apply hg
    unfold pathInit
    dsimp only
    rw [if_neg htne]
  · intro n hn hp
    exfalso
    exact hp (by unfold pathInit; rfl)

/-- Exhaustive description of one A* neighbour relaxation: either the
state is unchanged, or all guards passed and the state records the new
g-score and predecessor and pushes the neighbour. -/
theorem relaxPath_cases (s : PState) (cx cy : Int) (d : Int × Int) :
    relaxPath width height grid costs blocked ex ey maxCost cx cy
      (idxOf width (cx, cy)) s d = s ∨
    (inB width height (cx + d.1, cy + d.2) ∧
      s.closed (idxOf width (cx + d.1, cy + d.2)) = false ∧
      blocked (idxOf width (cx + d.1, cy + d.2)) = false ∧
      moveCost grid costs (idxOf width (cx + d.1, cy + d.2)) ≠ ⊤ ∧
      ¬(0 ≤ maxCost ∧ (maxCost : Cost) < s.gScores (idxOf width (cx, cy)) +
        moveCost grid costs (idxOf width (cx + d.1, cy + d.2))) ∧
      s.gScores (idxOf width (cx, cy)) +
        moveCost grid costs (idxOf width (cx + d.1, cy + d.2)) <
        s.gScores (idxOf width (cx + d.1, cy + d.2)) ∧
      relaxPath width height grid costs blocked ex ey maxCost cx cy
        (idxOf width (cx, cy)) s d =
        { gScores := fun i => if i = idxOf width (cx + d.1, cy + d.2) then
            s.gScores (idxOf width (cx, cy)) +
              moveCost grid costs (idxOf width (cx + d.1, cy + d.2))
          else s.gScores i,
          parents := fun i => if i = idxOf width (cx + d.1, cy + d.2) then
            idxOf width (cx, cy) else s.parents i,
          closed := s.closed,
          openSet := heap_push s.openSet (cx + d.1) (cy + d.2)
            (s.gScores (idxOf width (cx, cy)) +
              moveCost grid costs (idxOf width (cx + d.1, cy + d.2)) +
              hexH (cx + d.1) (cy + d.2) ex ey) }) := by
  unfold relaxPath
  dsimp only
  have hidx : (cy + d.2) * width + (cx + d.1) = idxOf width (cx + d.1, cy + d.2) := rfl
  by_cases hb : cx + d.1 < 0 ∨ width ≤ cx + d.1 ∨ cy + d.2 < 0 ∨ height ≤ cy + d.2
  · rw [if_pos hb]; exact Or.inl rfl
  · rw [if_neg hb]
    have hinB : inB width height (cx + d.1, cy + d.2) := by
      unfold inB; push_neg at hb; exact ⟨by omega, by omega, by omega, by omega⟩
    rw [hidx]
    by_cases h1 : s.closed (idxOf width (cx + d.1, cy + d.2))
    · rw [if_pos h1]; exact Or.inl rfl
    · rw [if_neg h1]
      by_cases h2 : blocked (idxOf width (cx + d.1, cy + d.2))
      · rw [if_pos h2]; exact Or.inl rfl
      · rw [if_neg h2]
        by_cases h4 : moveCost grid costs (idxOf width (cx + d.1, cy + d.2)) = ⊤
        · rw [if_pos h4]; exact Or.inl rfl
        · rw [if_neg h4]
          by_cases h5 : 0 ≤ maxCost ∧ (maxCost : Cost) <
              s.gScores (idxOf width (cx, cy)) +
                moveCost grid costs (idxOf width (cx + d.1, cy + d.2))
          · rw [if_pos h5]; exact Or.inl rfl
          · rw [if_neg h5]
            by_cases h6 : s.gScores (idxOf width (cx, cy)) +
                moveCost grid costs (idxOf width (cx + d.1, cy + d.2)) <
                s.gScores (idxOf width (cx + d.1, cy + d.2))
            · rw [if_pos h6]
              exact Or.inr ⟨hinB, by simpa using h1, by simpa using h2, h4, h5, h6, rfl⟩
            · rw [if_neg h6]; exact Or.inl rfl

theorem relaxPath_closed (s : PState) (cx cy cIdx : Int) (d : Int × Int) :
    (relaxPath width height grid costs blocked ex ey maxCost cx cy cIdx s d).closed
      = s.closed := by
  unfold relaxPath
  dsimp only
  repeat' split
  all_goals rfl

theorem relaxPath_mono (s : PState) (cx cy : Int) (d : Int × Int) (i : Int) :
    (relaxPath width height grid costs blocked ex ey maxCost cx cy
      (idxOf width (cx, cy)) s d).gScores i ≤ s.gScores i := by
  rcases relaxPath_cases width height grid costs blocked ex ey maxCost s cx cy d with h | h
  · rw [h]
  · obtain ⟨_, _, _, _, _, hlt, heq⟩ := h
    rw [heq]
    dsimp only
    split
    · next hi => rw [hi]; exact le_of_lt hlt
    · exact le_refl _

theorem relaxPath_frozen (s : PState) (cx cy : Int) (d : Int × Int) (i : Int)
    (hcl : s.closed i = true) :
    (relaxPath width height grid costs blocked ex ey maxCost cx cy
      (idxOf width (cx, cy)) s d).gScores i = s.gScores i ∧
    (relaxPath width height grid costs blocked ex ey maxCost cx cy
      (idxOf width (cx, cy)) s d).parents i = s.parents i := by
  rcases relaxPath_cases width height grid costs blocked ex ey maxCost s cx cy d with h | h
  · rw [h]; exact ⟨rfl, rfl⟩
  · obtain ⟨_, hncl, _, _, _, _, heq⟩ := h
    rw [heq]
    dsimp only
    constructor <;>
    · split
      · next hi => rw [hi] at hcl; rw [hcl] at hncl; cases hncl
      · rfl

theorem PI_relax {s : PState} {cx cy : Int} {d : Int × Int}
    (hg0 : 0 ≤ sy * width + sx)
    (hs : PI width height grid costs blocked ex ey sx sy s)
    (hc : inB width height (cx, cy) ∨ (cx, cy) = (sx, sy))
    (hcs : idxOf width (cx, cy) = sy * width + sx → (cx, cy) = (sx, sy))
    (hd : d ∈ dirsFor cy)
    (hcl : s.closed (idxOf width (cx, cy)) = true) :
    PI width height grid costs blocked ex ey sx sy
      (relaxPath width height grid costs blocked ex ey maxCost cx cy
        (idxOf width (cx, cy)) s d) := by
  rcases relaxPath_cases width height grid costs blocked ex ey maxCost s cx cy d with h | h
  · rw [h]; exact hs
  · obtain ⟨hinB, hncl, hnbl, hmc, hbud, hlt, heq⟩ := h
    rw [heq]
    have htgne : s.gScores (idxOf width (cx, cy)) +
        moveCost grid costs (idxOf width (cx + d.1, cy + d.2)) ≠ ⊤ := ne_top_of_lt hlt
    have hgcne : s.gScores (idxOf width (cx, cy)) ≠ ⊤ := by
      intro hcontra
      apply htgne
      rw [hcontra, top_add]
    have hcne : idxOf width (cx, cy) ≠ idxOf width (cx + d.1, cy + d.2) := by
      intro hcontra
      rw [hcontra] at hcl
      rw [hcl] at hncl
      cases hncl
    have htgnn : (0 : Cost) ≤ s.gScores (idxOf width (cx, cy)) +
        moveCost grid costs (idxOf width (cx + d.1, cy + d.2)) :=
      add_nonneg (hs.gNonneg _) (moveCost_nonneg grid costs _)
    have hglt : s.gScores (idxOf width (cx, cy)) <
        s.gScores (idxOf width (cx, cy)) +
          moveCost grid costs (idxOf width (cx + d.1, cy + d.2)) := by
      calc s.gScores (idxOf width (cx, cy)) =
          s.gScores (idxOf width (cx, cy)) + 0 := (add_zero _).symm
        _ < _ := by
          apply WithTop.add_lt_add_left hgcne
          exact lt_of_lt_of_le (by norm_num) (moveCost_ge_one grid costs _)
    constructor
    · -- entries
      intro e he
      dsimp only at he
      rcases mem_heap_push he with h' | h'
      · exact hs.entries e h'
      · rw [h']; exact Or.inl hinB
    · -- entriesG
      intro e he
      dsimp only at he ⊢
      rcases mem_heap_push he with h' | h'
      · split
        · exact htgne
        · exact hs.entriesG e h'
      · rw [h']
        dsimp only
        rw [if_pos (show (cy + d.2) * width + (cx + d.1)
          = idxOf width (cx + d.1, cy + d.2) from rfl)]
        exact htgne
    · -- entriesStart
      intro e he hidx
      dsimp only at he
      rcases mem_heap_push he with h' | h'
      · exact hs.entriesStart e h' hidx
      · exfalso
        rw [h'] at hidx
        dsimp only at hidx
        have hidx' : idxOf width (cx + d.1, cy + d.2) = sy * width + sx := hidx
        rw [hidx', hs.gStart] at hlt
        exact absurd (lt_of_le_of_lt (add_nonneg (hs.gNonneg _)
          (moveCost_nonneg grid costs _)) hlt) (lt_irrefl _)
    · -- startFresh
      intro h0
      dsimp only at h0
      exact absurd (hs.startFirst h0 (idxOf width (cx, cy))) (by rw [hcl]; simp)
    · -- startFirst
      intro h0
      dsimp only at h0
      exact absurd (hs.startFirst h0 (idxOf width (cx, cy))) (by rw [hcl]; simp)
    · -- goalClosed
      intro hge e he
      dsimp only at hge he
      rcases mem_heap_push he with h' | h'
      · exact hs.goalClosed hge e h'
      · rw [h']
        dsimp only
        rintro ⟨hex, hey⟩
        have : idxOf width (cx + d.1, cy + d.2) = ey * width + ex := by
          unfold idxOf
          dsimp only
          rw [hex, hey]
        rw [this, hge] at hncl
        cases hncl
    · -- gStart
      dsimp only
      rw [if_neg]
      · exact hs.gStart
      · intro hcontra
        rw [← hcontra, hs.gStart] at hlt
        have hnn : (0 : Cost) ≤ s.gScores (idxOf width (cx, cy)) +
            moveCost grid costs (sy * width + sx) :=
          add_nonneg (hs.gNonneg _) (moveCost_nonneg grid costs _)
        exact absurd (lt_of_le_of_lt hnn hlt) (lt_irrefl _)
    · -- gNonneg
      intro i
      dsimp only
      split
      · exact htgnn
      · exact hs.gNonneg i
    · -- parentSet
      intro t ht htne hgfin
      dsimp only at hgfin ⊢
      by_cases hteq : idxOf width t = idxOf width (cx + d.1, cy + d.2)
      · rw [if_pos hteq]
        have hc0 : 0 ≤ idxOf width (cx, cy) := by
          rcases hc with h' | h'
          · exact (idxOf_range width height h').1
          · rw [h']; exact hg0
        omega
      · rw [if_neg hteq]
        rw [if_neg hteq] at hgfin
        exact hs.parentSet t ht htne hgfin
    · -- parentOk
      intro n hn hpne
      dsimp only at hpne ⊢
      by_cases hneq : idxOf width n = idxOf width (cx + d.1, cy + d.2)
      · have hn' : n = (cx + d.1, cy + d.2) := idxOf_inj width height hn hinB hneq
        subst hn'
        refine ⟨(cx, cy), hc, by rw [if_pos hneq], ?_, hnbl, hmc, hcl, ?_, ?_, hcs⟩
        · dsimp only
          have h1 : cx + d.1 - cx = d.1 := by ring
          have h2 : cy + d.2 - cy = d.2 := by ring
          rw [h1, h2]
          exact hd
        · rw [if_neg hcne]
          exact hgcne
        · rw [if_neg hcne, if_pos hneq]
          exact hglt
      · rw [if_neg hneq] at hpne
        obtain ⟨c', hc1, hc2, hc3, hc4, hc5, hc6, hc7, hc8, hc9⟩ := hs.parentOk n hn hpne
        have hcne' : idxOf width c' ≠ idxOf width (cx + d.1, cy + d.2) := by
          intro hcontra
          rw [hcontra] at hc6
          rw [hc6] at hncl
          cases hncl
        exact ⟨c', hc1, by rw [if_neg hneq]; exact hc2, hc3, hc4, hc5, hc6,
          by rw [if_neg hcne']; exact hc7,
          by rw [if_neg hcne', if_neg hneq]; exact hc8, hc9⟩

theorem PI_pop {s : PState}
    (hs : PI width height grid costs blocked ex ey sx sy s)
    (hnem : s.openSet.nodes ≠ []) :
    PI width height grid costs blocked ex ey sx sy
      { s with openSet := (heap_pop s.openSet).2 } := by
  constructor
  · exact fun e he => hs.entries e (heap_pop_rest_subset he)
  · exact fun e he => hs.entriesG e (heap_pop_rest_subset he)
  · exact fun e he => hs.entriesStart e (heap_pop_rest_subset he)
  · intro h0
    obtain ⟨ha, hl⟩ := hs.startFresh h0
    refine ⟨fun e he => ha e (heap_pop_rest_subset he), ?_⟩
    rw [heap_pop_length hnem]
    omega
  · exact hs.startFirst
  · exact fun hge e he => hs.goalClosed hge e (heap_pop_rest_subset he)
  · exact hs.gStart
  · exact hs.gNonneg
  · exact hs.parentSet
  · exact hs.parentOk

theorem PI_pathStep (hg0 : 0 ≤ sy * width + sx) {s : PState}
    (hs : PI width height grid costs blocked ex ey sx sy s)
    (hne : s.openSet.nodes ≠ []) :
    PI width height grid costs blocked ex ey sx sy
      (pathStep width height grid costs blocked ex ey maxCost s).2 := by
  have hroot := heap_pop_root_mem hne
  have hrootco := hs.entries _ hroot
  have hs' := PI_pop width height grid costs blocked ex ey sx sy hs hne
  unfold pathStep
  dsimp only
  split
  · exact hs'
  · split
    · exact hs'
    · next h1 h2 =>
      -- the expansion branch: close the popped tile, then relax
      have hcIn := hrootco
      have hclosed2 : s.closed ((heap_pop s.openSet).1.y * width +
          (heap_pop s.openSet).1.x) = false := by
        simpa using h2
      have hs'' : PI width height grid costs blocked ex ey sx sy
          { gScores := s.gScores, parents := s.parents,
            closed := fun i => if i = (heap_pop s.openSet).1.y * width +
              (heap_pop s.openSet).1.x then true else s.closed i,
            openSet := (heap_pop s.openSet).2 } := by
        constructor
        · exact fun e he => hs.entries e (heap_pop_rest_subset he)
        · exact fun e he => hs.entriesG e (heap_pop_rest_subset he)
        · exact fun e he => hs.entriesStart e (heap_pop_rest_subset he)
        · intro h0
          dsimp only at h0
          exfalso
          split at h0
          · cases h0
          · next hnes =>
            obtain ⟨ha, _⟩ := hs.startFresh h0
            have := ha _ hroot
            apply hnes
            have hx : (heap_pop s.openSet).1.x = sx := congrArg Prod.fst this
            have hy : (heap_pop s.openSet).1.y = sy := congrArg Prod.snd this
            rw [hx, hy]
        · intro h0
          dsimp only at h0
          exfalso
          split at h0
          · cases h0
          · next hnes =>
            obtain ⟨ha, _⟩ := hs.startFresh h0
            have := ha _ hroot
            apply hnes
            have hx : (heap_pop s.openSet).1.x = sx := congrArg Prod.fst this
            have hy : (heap_pop s.openSet).1.y = sy := congrArg Prod.snd this
            rw [hx, hy]
        · intro hge e he
          dsimp only at hge
          have hemem := heap_pop_rest_subset he
          by_cases hclbe : s.closed (ey * width + ex) = true
          · exact hs.goalClosed hclbe e hemem
          · rintro ⟨hex, hey⟩
            have hcIdxeq : ey * width + ex = (heap_pop s.openSet).1.y * width +
                (heap_pop s.openSet).1.x := by
              split at hge
              · next hcc => exact hcc.symm ▸ hcc
              · exact absurd hge hclbe
            have hge' := hs.entries e hemem
            rw [hex, hey] at hge'
            rcases hge' with hginB | hgst
            · rcases hrootco with hrinB | hrst
              · have : ((heap_pop s.openSet).1.x, (heap_pop s.openSet).1.y)
                    = (ex, ey) := by
                  refine idxOf_inj width height hrinB hginB ?_
                  unfold idxOf
                  dsimp only
                  omega
                exact h1 ⟨congrArg Prod.fst this, congrArg Prod.snd this⟩
              · have hstix : (heap_pop s.openSet).1.y * width +
                    (heap_pop s.openSet).1.x = sy * width + sx := by
                  have hx : (heap_pop s.openSet).1.x = sx := congrArg Prod.fst hrst
                  have hy : (heap_pop s.openSet).1.y = sy := congrArg Prod.snd hrst
                  rw [hx, hy]
                have hclst : s.closed (sy * width + sx) = false := by
                  rw [← hstix, ← hcIdxeq]
                  simpa using hclbe
                obtain ⟨ha, _⟩ := hs.startFresh hclst
                have Heq := ha e hemem
                rw [hex, hey] at Heq
                have heq0 := ha _ hroot
                have hpx : (heap_pop s.openSet).1.x = sx := congrArg Prod.fst heq0
                have hpy : (heap_pop s.openSet).1.y = sy := congrArg Prod.snd heq0
                have hxs : ex = sx := congrArg Prod.fst Heq
                have hys : ey = sy := congrArg Prod.snd Heq
                exact h1 ⟨by rw [hpx, hxs], by rw [hpy, hys]⟩
            · have hgoalidx : ey * width + ex = sy * width + sx := by
                have hx : ex = sx := congrArg Prod.fst hgst
                have hy : ey = sy := congrArg Prod.snd hgst
                rw [hx, hy]
              have hclst : s.closed (sy * width + sx) = false := by
                rw [← hgoalidx]
                simpa using hclbe
              obtain ⟨ha, _⟩ := hs.startFresh hclst
              have heq0 := ha _ hroot
              have hpx : (heap_pop s.openSet).1.x = sx := congrArg Prod.fst heq0
              have hpy : (heap_pop s.openSet).1.y = sy := congrArg Prod.snd heq0
              have hxs : ex = sx := congrArg Prod.fst hgst
              have hys : ey = sy := congrArg Prod.snd hgst
              exact h1 ⟨by rw [hpx, hxs], by rw [hpy, hys]⟩
        · exact hs.gStart
        · exact hs.gNonneg
        · exact hs.parentSet
        · intro n hn hpne
          obtain ⟨c', hc1, hc2, hc3, hc4, hc5, hc6, hc7, hc8, hc9⟩ := hs.parentOk n hn hpne
          refine ⟨c', hc1, hc2, hc3, hc4, hc5, ?_, hc7, hc8, hc9⟩
          dsimp only
          split
          · rfl
          · exact hc6
      refine (foldl_preserve (P := fun st : PState =>
          PI width height grid costs blocked ex ey sx sy st ∧
          st.closed = fun i => if i = (heap_pop s.openSet).1.y * width +
            (heap_pop s.openSet).1.x then true else s.closed i) _ _ _
          ⟨hs'', rfl⟩ ?_).1
      intro st d hd hP
      obtain ⟨hPI, hPcl⟩ := hP
      have hcl : st.closed (idxOf width ((heap_pop s.openSet).1.x,
          (heap_pop s.openSet).1.y)) = true := by
        rw [hPcl]
        exact if_pos rfl
      refine ⟨PI_relax width height grid costs blocked ex ey maxCost sx sy hg0
        hPI hrootco (hs.entriesStart _ hroot) hd hcl, ?_⟩
      rw [relaxPath_closed]
      exact hPcl

/-- The search loop preserves the invariant, and whenever it reports
`found`, either start and goal coincide as coordinates or the goal is in
bounds with a finite recorded g-score. -/
theorem pathLoop_spec (hg0 : 0 ≤ sy * width + sx) :
    ∀ (fuel : Nat) (s : PState), PI width height grid costs blocked ex ey sx sy s →
    PI width height grid costs blocked ex ey sx sy
      (pathLoop width height grid costs blocked ex ey maxCost fuel s).2 ∧
    ((pathLoop width height grid costs blocked ex ey maxCost fuel s).1 = true →
      ((ex, ey) = (sx, sy) ∨
       (inB width height (ex, ey) ∧
        (pathLoop width height grid costs blocked ex ey maxCost fuel s).2.gScores
          (ey * width + ex) ≠ ⊤ ∧
        ey * width + ex ≠ sy * width + sx))) := by
  intro fuel
  induction fuel with
  | zero =>
    intro s hs
    exact ⟨hs, fun h => by cases h⟩
  | succ fuel ih =>
    intro s hs
    rw [pathLoop]
    split
    · exact ⟨hs, fun h => by cases h⟩
    · next hne =>
      dsimp only
      split
      · next hfound =>
        -- the step reported found: analyse the popped entry
        refine ⟨?_, ?_⟩
        · exact PI_pathStep width height grid costs blocked ex ey maxCost sx sy hg0 hs hne
        · intro _
          have hroot := heap_pop_root_mem hne
          have hrootco := hs.entries _ hroot
          have hrootG := hs.entriesG _ hroot
          -- in the found branch the popped coordinates are the goal
          unfold pathStep at hfound
          dsimp only at hfound
          split at hfound
          · next hcc =>
            obtain ⟨hex, hey⟩ := hcc
            rw [hex, hey] at hrootco hrootG
            rcases hrootco with hrinB | hrst
            · by_cases hidxeq : ey * width + ex = sy * width + sx
              · left
                have hco := hs.entriesStart _ hroot (by rw [hex, hey]; exact hidxeq)
                rw [← hex, ← hey]
                exact hco
              · right
                refine ⟨hrinB, ?_, hidxeq⟩
                -- the state returned by the found branch keeps the g-scores of `s`
                unfold pathStep
                dsimp only
                rw [if_pos ⟨hex, hey⟩]
                exact hrootG
            · exact Or.inl hrst
          · split at hfound
            · cases hfound
            · cases hfound
      · next hnf =>
        exact ih _ (PI_pathStep width height grid costs blocked ex ey maxCost sx sy hg0 hs hne)

/-- Monotone decrease of g-scores over one iteration. -/
theorem pathStep_mono (s : PState) (i : Int) :
    (pathStep width height grid costs blocked ex ey maxCost s).2.gScores i
      ≤ s.gScores i := by
  unfold pathStep
  dsimp only
  split
  · exact le_refl _
  · split
    · exact le_refl _
    · refine foldl_preserve (P := fun st : PState => st.gScores i ≤ s.gScores i) _ _ _
        (le_refl _) ?_
      intro st d _ hP
      exact le_trans (relaxPath_mono width height grid costs blocked ex ey maxCost
        st _ _ d i) hP

theorem fold_relaxPath_closed (s : PState) (cx cy cIdx : Int) (dirs : List (Int × Int)) :
    (dirs.foldl (relaxPath width height grid costs blocked ex ey maxCost cx cy cIdx)
      s).closed = s.closed := by
  refine foldl_preserve (P := fun st : PState => st.closed = s.closed) _ dirs s rfl ?_
  intro s' b _ hP
  rw [relaxPath_closed, hP]

/-- A closed tile keeps its g-score, predecessor and closed flag over
one iteration. -/
theorem pathStep_frozen (s : PState) (i : Int) (h : s.closed i = true) :
    (pathStep width height grid costs blocked ex ey maxCost s).2.gScores i
      = s.gScores i ∧
    (pathStep width height grid costs blocked ex ey maxCost s).2.parents i
      = s.parents i ∧
    (pathStep width height grid costs blocked ex ey maxCost s).2.closed i = true := by
  unfold pathStep
  dsimp only
  split
  · exact ⟨rfl, rfl, h⟩
  · split
    · exact ⟨rfl, rfl, h⟩
    · have key : ∀ s'' : PState, s''.gScores i = s.gScores i →
        s''.parents i = s.parents i → s''.closed i = true →
        (List.foldl (relaxPath width height grid costs blocked ex ey maxCost
            (heap_pop s.openSet).1.x (heap_pop s.openSet).1.y
            ((heap_pop s.openSet).1.y * width + (heap_pop s.openSet).1.x)) s''
          (dirsFor (heap_pop s.openSet).1.y)).gScores i = s.gScores i ∧
        (List.foldl (relaxPath width height grid costs blocked ex ey maxCost
            (heap_pop s.openSet).1.x (heap_pop s.openSet).1.y
            ((heap_pop s.openSet).1.y * width + (heap_pop s.openSet).1.x)) s''
          (dirsFor (heap_pop s.openSet).1.y)).parents i = s.parents i ∧
        (List.foldl (relaxPath width height grid costs blocked ex ey maxCost
            (heap_pop s.openSet).1.x (heap_pop s.openSet).1.y
            ((heap_pop s.openSet).1.y * width + (heap_pop s.openSet).1.x)) s''
          (dirsFor (heap_pop s.openSet).1.y)).closed i = true := by
        intro s'' h1 h2 h3
        exact foldl_preserve (P := fun st : PState => st.gScores i = s.gScores i ∧
          st.parents i = s.parents i ∧ st.closed i = true) _ _ _ ⟨h1, h2, h3⟩
          (fun st d _ hP => by
            obtain ⟨hg, hp, hc⟩ := hP
            obtain ⟨hfg, hfp⟩ := relaxPath_frozen width height grid costs blocked
              ex ey maxCost st (heap_pop s.openSet).1.x (heap_pop s.openSet).1.y d i hc
            refine ⟨hfg.trans hg, hfp.trans hp, ?_⟩
            rw [relaxPath_closed]
            exact hc)
      apply key
      · rfl
      · rfl
      · dsimp only
        split
        · rfl
        · exact h

/-- A popped entry whose tile is already closed is discarded with no
state change beyond the pop (under the loop invariant, a closed popped
tile cannot carry the goal coordinates, so the goal test does not fire). -/
theorem pathStep_stale {s : PState}
    (hs : PI width height grid costs blocked ex ey sx sy s)
    (hne : s.openSet.nodes ≠ [])
    (hclosed : s.closed ((heap_pop s.openSet).1.y * width +
      (heap_pop s.openSet).1.x) = true) :
    pathStep width height grid costs blocked ex ey maxCost s
      = (false, { s with openSet := (heap_pop s.openSet).2 }) := by
  have hroot := heap_pop_root_mem hne
  have hnotgoal : ¬((heap_pop s.openSet).1.x = ex ∧ (heap_pop s.openSet).1.y = ey) := by
    rintro ⟨hex, hey⟩
    have hgcl : s.closed (ey * width + ex) = true := by
      rw [← hex, ← hey]
      exact hclosed
    exact hs.goalClosed hgcl _ hroot ⟨hex, hey⟩
  unfold pathStep
  dsimp only
  rw [if_neg hnotgoal, if_pos hclosed]

theorem pathLoop_mono : ∀ (fuel : Nat) (s : PState) (i : Int),
    (pathLoop width height grid costs blocked ex ey maxCost fuel s).2.gScores i
      ≤ s.gScores i := by
  intro fuel
  induction fuel with
  | zero => intro s i; exact le_refl _
  | succ fuel ih =>
    intro s i
    rw [pathLoop]
    split
    · exact le_refl _
    · dsimp only
      split
      · exact pathStep_mono width height grid costs blocked ex ey maxCost s i
      · exact le_trans (ih _ i)
          (pathStep_mono width height grid costs blocked ex ey maxCost s i)

theorem pathLoop_frozen : ∀ (fuel : Nat) (s : PState) (i : Int), s.closed i = true →
    (pathLoop width height grid costs blocked ex ey maxCost fuel s).2.gScores i
      = s.gScores i ∧
    (pathLoop width height grid costs blocked ex ey maxCost fuel s).2.parents i
      = s.parents i ∧
    (pathLoop width height grid costs blocked ex ey maxCost fuel s).2.closed i
      = true := by
  intro fuel
  induction fuel with
  | zero => intro s i h; exact ⟨rfl, rfl, h⟩
  | succ fuel ih =>
    intro s i h
    rw [pathLoop]
    split
    · exact ⟨rfl, rfl, h⟩
    · dsimp only
      obtain ⟨h1, h2, h3⟩ :=
        pathStep_frozen width height grid costs blocked ex ey maxCost s i h
      split
      · exact ⟨h1, h2, h3⟩
      · obtain ⟨ha, hb, hc⟩ := ih _ i h3
        exact ⟨ha.trans h1, hb.trans h2, hc⟩

/-- Correctness of the predecessor walk of `buildPath`: starting from
any in-bounds tile with a finite g-score that is not the start index,
with enough fuel, the walk produces the reversed predecessor chain —
a nonempty list ending at the starting tile, each of whose tiles is
in-bounds, distinct from the start index and unblocked, forming a chain
of permitted hex moves rooted at the start coordinates. -/
theorem buildPath_ok {s : PState}
    (hs : PI width height grid costs blocked ex ey sx sy s) :
    ∀ (fuel : Nat) (t : Int × Int) (acc : List (Int × Int)),
      inB width height t →
      s.gScores (idxOf width t) ≠ ⊤ →
      idxOf width t ≠ sy * width + sx →
      gMeasure width height s.gScores (idxOf width t) < fuel →
      ∃ p : List (Int × Int),
        buildPath width (sy * width + sx) s.parents fuel (idxOf width t) acc
          = p ++ acc ∧
        p.getLast? = some t ∧
        chainOk (pStepOk width height grid costs blocked) (sx, sy) p ∧
        ∀ u ∈ p, inB width height u ∧ idxOf width u ≠ sy * width + sx ∧
          blocked (idxOf width u) = false := by
  intro fuel
  induction fuel with
  | zero =>
    intro t acc _ _ _ hM
    exact absurd hM (Nat.not_lt_zero _)
  | succ fuel ih =>
    intro t acc ht hgfin htne hM
    have hpne : s.parents (idxOf width t) ≠ -1 := hs.parentSet t ht htne hgfin
    obtain ⟨c, hc1, hc2, hc3, hc4, hc5, hc6, hc7, hc8, hc9⟩ := hs.parentOk t ht hpne
    have hrec : (idxOf width t % width, idxOf width t / width) = t :=
      Prod.ext (idxOf_recover width height ht).1 (idxOf_recover width height ht).2
    rw [buildPath_succ, if_neg htne, hrec, hc2]
    by_cases hcs : idxOf width c = sy * width + sx
    · -- the predecessor is the start tile: the walk stops after `t`
      have hceq : c = (sx, sy) := hc9 hcs
      rw [hcs]
      have hstop : buildPath width (sy * width + sx) s.parents fuel
          (sy * width + sx) (t :: acc) = t :: acc := by
        cases fuel with
        | zero => rfl
        | succ f => rw [buildPath_succ, if_pos rfl]
      refine ⟨[t], by rw [hstop]; rfl, by simp, ?_, ?_⟩
      · refine ⟨?_, trivial⟩
        rw [← hceq]
        exact ⟨hc3, ht, hc4, hc5⟩
      · intro u hu
        rcases List.mem_singleton.mp hu with rfl
        exact ⟨ht, htne, hc4⟩
    · -- the predecessor is a proper in-bounds tile: recurse
      have hcin : inB width height c := by
        rcases hc1 with h | h
        · exact h
        · rw [h] at hcs
          exact absurd rfl hcs
      have hMc : gMeasure width height s.gScores (idxOf width c) <
          gMeasure width height s.gScores (idxOf width t) :=
        gMeasure_lt width height s.gScores hc8 (idxOf_range width height hcin)
      obtain ⟨p', hp1, hp2, hp3, hp4⟩ := ih c (t :: acc) hcin hc7 hcs
        (lt_of_lt_of_le hMc (Nat.lt_succ_iff.mp hM))
      refine ⟨p' ++ [t], ?_, by simp, ?_, ?_⟩
      · rw [hp1, List.append_assoc]
        rfl
      · apply chainOk_append_one hp3
        have hend : chainEnd (sx, sy) p' = c := by
          unfold chainEnd
          rw [hp2]
          rfl
        rw [hend]
        exact ⟨hc3, ht, hc4, hc5⟩
      · intro u hu
        rcases List.mem_append.mp hu with h | h
        · exact hp4 u h
        · rcases List.mem_singleton.mp h with rfl
          exact ⟨ht, htne, hc4⟩

end PathInv

/-- Shape of every successful `c_find_path` result: an empty path when
start and goal coincide, otherwise a nonempty chain of permitted hex
moves from the start to the goal that never revisits the start. -/
theorem c_find_path_spec (width height : Int) (grid : Int → Int) (costs : Int → Cost)
    (sx sy ex ey : Int) (blocked : Int → Bool) (maxCost : ℚ) {p : List (Int × Int)}
    (hres : c_find_path width height grid costs sx sy ex ey blocked maxCost = some p) :
    (((ex, ey) : Int × Int) = (sx, sy) → p = []) ∧
    (((ex, ey) : Int × Int) ≠ (sx, sy) →
      p ≠ [] ∧ p.getLast? = some (ex, ey) ∧ ((sx, sy) : Int × Int) ∉ p ∧
      chainOk (pStepOk width height grid costs blocked) (sx, sy) p ∧
      ∀ u ∈ p, inB width height u ∧ blocked (idxOf width u) = false) := by
  unfold c_find_path at hres
  by_cases hguard : 0 ≤ sy * width + sx ∧ sy * width + sx < width * height
  · rw [if_pos hguard] at hres
    dsimp only at hres
    by_cases hfound : (pathLoop width height grid costs blocked ex ey maxCost
        (loopFuel width height) (pathInit width height sx sy ex ey)).1 = true
    · rw [if_pos hfound] at hres
      obtain ⟨hPI, hdisj⟩ := pathLoop_spec width height grid costs blocked ex ey
        maxCost sx sy hguard.1 (loopFuel width height)
        (pathInit width height sx sy ex ey)
        (PI_init width height grid costs blocked ex ey sx sy)
      rcases hdisj hfound with heq | ⟨hginB, hgfin, hidxne⟩
      · -- start and goal coincide: the walk stops immediately
        have hex : ex = sx := congrArg Prod.fst heq
        have hey : ey = sy := congrArg Prod.snd heq
        rw [hex, hey, buildPath_succ, if_pos rfl] at hres
        have hp : p = [] := (Option.some.inj hres).symm
        exact ⟨fun _ => hp, fun hne => absurd heq hne⟩
      · -- goal reached at a tile distinct from the start index
        have hne : ((ex, ey) : Int × Int) ≠ (sx, sy) := by
          intro hcontra
          apply hidxne
          have hx : ex = sx := congrArg Prod.fst hcontra
          have hy : ey = sy := congrArg Prod.snd hcontra
          rw [hx, hy]
        obtain ⟨p', hp1, hp2, hp3, hp4⟩ := buildPath_ok width height grid costs
          blocked ex ey sx sy hPI ((width * height).toNat + 1) (ex, ey) [] hginB
          hgfin hidxne
          (Nat.lt_succ_of_le (gMeasure_le width height _ _))
        have hp0 := Option.some.inj hres
        rw [show ey * width + ex = idxOf width ((ex, ey) : Int × Int) from rfl] at hp0
        rw [hp1, List.append_nil] at hp0
        refine ⟨fun habs => absurd habs hne, fun _ => ?_⟩
        rw [hp0] at hp2 hp3 hp4
        refine ⟨?_, hp2, ?_, hp3, fun u hu => ⟨(hp4 u hu).1, (hp4 u hu).2.2⟩⟩
        · intro hnil
          rw [hnil] at hp2
          cases hp2
        · intro hmem
          exact (hp4 _ hmem).2.1 rfl
    · rw [if_neg hfound] at hres
      cases hres
  · rw [if_neg hguard] at hres
    cases hres

/-- C5: every path returned by `c_find_path` is an ordered sequence that
excludes the start tile and ends with the goal tile, in which every
coordinate is in-bounds and absent from the blocked set, each tile is
hex-adjacent to the previous one per the direction table of the
predecessor's row parity (the first to the start); when start equals
goal the returned path is empty. -/
theorem claim_C5 (width height : Int) (grid : Int → Int) (costs : Int → Cost)
    (sx sy ex ey : Int) (blocked : Int → Bool) (maxCost : ℚ) {p : List (Int × Int)}
    (hres : c_find_path width height grid costs sx sy ex ey blocked maxCost = some p) :
    (((ex, ey) : Int × Int) = (sx, sy) → p = []) ∧
    (((ex, ey) : Int × Int) ≠ (sx, sy) →
      p ≠ [] ∧ p.getLast? = some (ex, ey) ∧ ((sx, sy) : Int × Int) ∉ p ∧
      chainOk (pStepOk width height grid costs blocked) (sx, sy) p ∧
      ∀ u ∈ p, inB width height u ∧ blocked (idxOf width u) = false) :=
  c_find_path_spec width height grid costs sx sy ex ey blocked maxCost hres

theorem claim_C5_witness :
    c_find_path 2 2 (fun _ => 0) (fun _ => 1) 0 0 1 1 (fun i => decide (i = 0)) (-1)
        = some [(1, 0), (1, 1)] ∧
    ((((1 : Int), (1 : Int)) = (((0 : Int), (0 : Int)) : Int × Int) →
        ([((1 : Int), (0 : Int)), (1, 1)] : List (Int × Int)) = []) ∧
     (((1 : Int), (1 : Int)) ≠ (((0 : Int), (0 : Int)) : Int × Int) →
        ([((1 : Int), (0 : Int)), (1, 1)] : List (Int × Int)) ≠ [] ∧
        ([((1 : Int), (0 : Int)), (1, 1)] : List (Int × Int)).getLast? = some (1, 1) ∧
        (((0 : Int), (0 : Int)) : Int × Int) ∉
          ([((1 : Int), (0 : Int)), (1, 1)] : List (Int × Int)) ∧
        chainOk (pStepOk 2 2 (fun _ => 0) (fun _ => 1) (fun i => decide (i = 0)))
          (0, 0) [((1 : Int), (0 : Int)), (1, 1)] ∧
        ∀ u ∈ ([((1 : Int), (0 : Int)), (1, 1)] : List (Int × Int)),
          inB 2 2 u ∧ (fun i => decide (i = 0)) (idxOf 2 u) = false)) :=
  ⟨by with_unfolding_all rfl,
   claim_C5 2 2 (fun _ => 0) (fun _ => 1) 0 0 1 1 (fun i => decide (i = 0)) (-1)
     (by with_unfolding_all rfl)⟩

/-- A cost override of `0` or less is clamped: the effective move-cost
table is identical to the one produced by an override of `1`. -/
theorem moveCost_override_nonpos (grid : Int → Int) (costs : Int → Cost)
    (tid : Int) (v : ℚ) (hv : v ≤ 0) :
    moveCost grid (applyOverride costs tid ((v : ℚ) : Cost)) =
      moveCost grid (applyOverride costs tid 1) := by
  funext idx
  by_cases hg : 0 ≤ grid idx ∧ grid idx < 100
  · by_cases hid : 0 ≤ tid ∧ tid < 100
    · by_cases heq : grid idx = tid
      · have h1 : tableCost grid (applyOverride costs tid ((v : ℚ) : Cost)) idx
            = ((v : ℚ) : Cost) := by
          simp [tableCost, applyOverride, hg.1, hg.2, hid.1, hid.2, heq]
        have h2 : tableCost grid (applyOverride costs tid 1) idx = 1 := by
          simp [tableCost, applyOverride, hg.1, hg.2, hid.1, hid.2, heq]
        unfold moveCost
        rw [h1, h2, if_pos (show ((v : ℚ) : Cost) < 1 from by
          exact_mod_cast show v < (1 : ℚ) by linarith), if_neg (lt_irrefl (1 : Cost))]
      · have h1 : tableCost grid (applyOverride costs tid ((v : ℚ) : Cost)) idx
            = tableCost grid (applyOverride costs tid 1) idx := by
          simp [tableCost, applyOverride, hg.1, hg.2, hid.1, hid.2, heq]
        unfold moveCost
        rw [h1]
    · have h1 : tableCost grid (applyOverride costs tid ((v : ℚ) : Cost)) idx
          = tableCost grid (applyOverride costs tid 1) idx := by
        simp [tableCost, applyOverride, hid]
      unfold moveCost
      rw [h1]
  · have h1 : tableCost grid (applyOverride costs tid ((v : ℚ) : Cost)) idx
        = tableCost grid (applyOverride costs tid 1) idx := by
      simp [tableCost, hg]
    unfold moveCost
    rw [h1]

/-- An override of `INFINITY` makes every tile of that terrain id carry
an infinite effective move cost (independently of the blocked set,
which `moveCost` never consults). -/
theorem moveCost_override_top (grid : Int → Int) (costs : Int → Cost)
    (tid idx : Int) (hid : 0 ≤ tid ∧ tid < 100) (hg : grid idx = tid) :
    moveCost grid (applyOverride costs tid ⊤) idx = ⊤ := by
  have h1 : tableCost grid (applyOverride costs tid ⊤) idx = ⊤ := by
    simp [tableCost, applyOverride, hg, hid.1, hid.2]
  unfold moveCost
  rw [h1, if_neg not_top_lt]

/-! Both engines consume the cost table only through `moveCost`, so two
tables with the same clamped move costs give identical runs. -/

theorem relaxReach_congr (width height : Int) (grid : Int → Int)
    (costs₁ costs₂ : Int → Cost) (blocked zoc : Int → Bool) (maxCost : ℚ)
    (h : moveCost grid costs₁ = moveCost grid costs₂) :
    relaxReach width height grid costs₁ blocked zoc maxCost =
      relaxReach width height grid costs₂ blocked zoc maxCost := by
  funext cx cy cIdx s d
  unfold relaxReach
  rw [h]

theorem reachStep_congr (width height : Int) (grid : Int → Int)
    (costs₁ costs₂ : Int → Cost) (blocked zoc : Int → Bool) (maxCost : ℚ)
    (h : moveCost grid costs₁ = moveCost grid costs₂) :
    reachStep width height grid costs₁ blocked zoc maxCost =
      reachStep width height grid costs₂ blocked zoc maxCost := by
  funext s
  unfold reachStep
  rw [relaxReach_congr width height grid costs₁ costs₂ blocked zoc maxCost h]

theorem reachLoop_congr (width height : Int) (grid : Int → Int)
    (costs₁ costs₂ : Int → Cost) (blocked zoc : Int → Bool) (maxCost : ℚ)
    (h : moveCost grid costs₁ = moveCost grid costs₂) :
    ∀ fuel : Nat,
      reachLoop width height grid costs₁ blocked zoc maxCost fuel =
        reachLoop width height grid costs₂ blocked zoc maxCost fuel := by
  intro fuel
  induction fuel with
  | zero => rfl
  | succ fuel ih =>
    funext s
    rw [reachLoop, reachLoop,
      reachStep_congr width height grid costs₁ costs₂ blocked zoc maxCost h, ih]

theorem c_find_reachable_congr (width height : Int) (grid : Int → Int)
    (costs₁ costs₂ : Int → Cost) (sx sy : Int) (blocked zoc : Int → Bool)
    (maxCost : ℚ) (h : moveCost grid costs₁ = moveCost grid costs₂) :
    c_find_reachable width height grid costs₁ sx sy blocked maxCost zoc =
      c_find_reachable width height grid costs₂ sx sy blocked maxCost zoc := by
  unfold c_find_reachable reachFinal
  rw [reachLoop_congr width height grid costs₁ costs₂ blocked zoc maxCost h]

theorem relaxPath_congr (width height : Int) (grid : Int → Int)
    (costs₁ costs₂ : Int → Cost) (blocked : Int → Bool) (ex ey : Int) (maxCost : ℚ)
    (h : moveCost grid costs₁ = moveCost grid costs₂) :
    relaxPath width height grid costs₁ blocked ex ey maxCost =
      relaxPath width height grid costs₂ blocked ex ey maxCost := by
  funext cx cy cIdx s d
  unfold relaxPath
  rw [h]

theorem pathStep_congr (width height : Int) (grid : Int → Int)
    (costs₁ costs₂ : Int → Cost) (blocked : Int → Bool) (ex ey : Int) (maxCost : ℚ)
    (h : moveCost grid costs₁ = moveCost grid costs₂) :
    pathStep width height grid costs₁ blocked ex ey maxCost =
      pathStep width height grid costs₂ blocked ex ey maxCost := by
  funext s
  unfold pathStep
  rw [relaxPath_congr width height grid costs₁ costs₂ blocked ex ey maxCost h]

theorem pathLoop_congr (width height : Int) (grid : Int → Int)
    (costs₁ costs₂ : Int → Cost) (blocked : Int → Bool) (ex ey : Int) (maxCost : ℚ)
    (h : moveCost grid costs₁ = moveCost grid costs₂) :
    ∀ fuel : Nat,
      pathLoop width height grid costs₁ blocked ex ey maxCost fuel =
        pathLoop width height grid costs₂ blocked ex ey maxCost fuel := by
  intro fuel
  induction fuel with
  | zero => rfl
  | succ fuel ih =>
    funext s
    rw [pathLoop, pathLoop,
      pathStep_congr width height grid costs₁ costs₂ blocked ex ey maxCost h, ih]

theorem c_find_path_congr (width height : Int) (grid : Int → Int)
    (costs₁ costs₂ : Int → Cost) (sx sy ex ey : Int) (blocked : Int → Bool)
    (maxCost : ℚ) (h : moveCost grid costs₁ = moveCost grid costs₂) :
    c_find_path width height grid costs₁ sx sy ex ey blocked maxCost =
      c_find_path width height grid costs₂ sx sy ex ey blocked maxCost := by
  unfold c_find_path
  rw [pathLoop_congr width height grid costs₁ costs₂ blocked ex ey maxCost h]

/-- C7: in both engines, a closed tile's recorded best cost (and, for
the path engine, its predecessor) is never changed for the rest of the
loop and the tile stays closed; recorded best costs only decrease over
any number of iterations; and a popped entry that is outdated — tile
already closed, or (in `c_find_reachable`) priority above the recorded
cost — is discarded with no state change beyond the pop (for the path
engine, under the loop invariant, since its goal test precedes the
closed check). -/
theorem claim_C7 (width height : Int) (grid : Int → Int) (costs : Int → Cost)
    (blocked zoc : Int → Bool) (ex ey sx sy : Int) (maxCost : ℚ) :
    (∀ (fuel : Nat) (s : RState) (i : Int), s.closed i = true →
      (reachLoop width height grid costs blocked zoc maxCost fuel s).minCosts i
          = s.minCosts i ∧
      (reachLoop width height grid costs blocked zoc maxCost fuel s).closed i
          = true) ∧
    (∀ (fuel : Nat) (s : RState) (i : Int),
      (reachLoop width height grid costs blocked zoc maxCost fuel s).minCosts i
        ≤ s.minCosts i) ∧
    (∀ s : RState,
      (s.minCosts ((heap_pop s.queue).1.y * width + (heap_pop s.queue).1.x)
          < (heap_pop s.queue).1.priority ∨
        s.closed ((heap_pop s.queue).1.y * width + (heap_pop s.queue).1.x)
          = true) →
      reachStep width height grid costs blocked zoc maxCost s
        = { s with queue := (heap_pop s.queue).2 }) ∧
    (∀ (fuel : Nat) (s : PState) (i : Int), s.closed i = true →
      (pathLoop width height grid costs blocked ex ey maxCost fuel s).2.gScores i
          = s.gScores i ∧
      (pathLoop width height grid costs blocked ex ey maxCost fuel s).2.parents i
          = s.parents i ∧
      (pathLoop width height grid costs blocked ex ey maxCost fuel s).2.closed i
          = true) ∧
    (∀ (fuel : Nat) (s : PState) (i : Int),
      (pathLoop width height grid costs blocked ex ey maxCost fuel s).2.gScores i
        ≤ s.gScores i) ∧
    (∀ s : PState, PI width height grid costs blocked ex ey sx sy s →
      s.openSet.nodes ≠ [] →
      s.closed ((heap_pop s.openSet).1.y * width + (heap_pop s.openSet).1.x)
        = true →
      pathStep width height grid costs blocked ex ey maxCost s
        = (false, { s with openSet := (heap_pop s.openSet).2 })) := by
  refine ⟨?_, ?_, ?_, ?_, ?_, ?_⟩
  · exact reachLoop_frozen width height grid costs blocked zoc maxCost
  · exact reachLoop_mono width height grid costs blocked zoc maxCost
  · intro s h
    exact reachStep_stale width height grid costs blocked zoc maxCost s h
  · exact pathLoop_frozen width height grid costs blocked ex ey maxCost
  · exact pathLoop_mono width height grid costs blocked ex ey maxCost
  · intro s hPI hne hcl
    exact pathStep_stale width height grid costs blocked ex ey maxCost sx sy
      hPI hne hcl

theorem claim_C7_witness :
    ({ minCosts := fun _ => 0, closed := fun _ => true,
       queue := ⟨[], 1⟩ } : RState).closed 0 = true ∧
    ((reachLoop 1 1 (fun _ => 0) (fun _ => 1) (fun _ => false) (fun _ => false) 9 1
        { minCosts := fun _ => 0, closed := fun _ => true,
          queue := ⟨[], 1⟩ }).minCosts 0
      = ({ minCosts := fun _ => 0, closed := fun _ => true,
           queue := ⟨[], 1⟩ } : RState).minCosts 0 ∧
     (reachLoop 1 1 (fun _ => 0) (fun _ => 1) (fun _ => false) (fun _ => false) 9 1
        { minCosts := fun _ => 0, closed := fun _ => true,
          queue := ⟨[], 1⟩ }).closed 0 = true) :=
  ⟨rfl, (claim_C7 1 1 (fun _ => 0) (fun _ => 1) (fun _ => false) (fun _ => false)
      0 0 0 0 9).1 1 _ 0 rfl⟩

/-- C8: a cost override of `0` or any negative value for a terrain id
gives exactly the same result as an override of `1.0`, for both engines;
an override of `INFINITY` gives every tile of that terrain an infinite
effective move cost — a quantity that never consults the blocked set —
so the reachability engine reports no such tile other than the start
and no returned path crosses such a tile, whatever the blocked set. -/
theorem claim_C8 (width height tid : Int) (grid : Int → Int) (costs : Int → Cost)
    (blocked zoc : Int → Bool) (sx sy ex ey : Int) (maxCost : ℚ) (v : ℚ)
    (hv : v ≤ 0) (hid : 0 ≤ tid ∧ tid < 100) (hstart : inB width height (sx, sy)) :
    (c_find_path width height grid (applyOverride costs tid ((v : ℚ) : Cost))
        sx sy ex ey blocked maxCost
      = c_find_path width height grid (applyOverride costs tid 1)
          sx sy ex ey blocked maxCost) ∧
    (c_find_reachable width height grid (applyOverride costs tid ((v : ℚ) : Cost))
        sx sy blocked maxCost zoc
      = c_find_reachable width height grid (applyOverride costs tid 1)
          sx sy blocked maxCost zoc) ∧
    (∀ idx : Int, grid idx = tid →
      moveCost grid (applyOverride costs tid ⊤) idx = ⊤) ∧
    (∀ (p : Int × Int) (c : Cost),
      (p, c) ∈ c_find_reachable width height grid (applyOverride costs tid ⊤)
        sx sy blocked maxCost zoc →
      grid (idxOf width p) = tid → p = (sx, sy)) ∧
    (∀ p : List (Int × Int),
      c_find_path width height grid (applyOverride costs tid ⊤)
        sx sy ex ey blocked maxCost = some p →
      ∀ u ∈ p, grid (idxOf width u) ≠ tid) := by
  have hmc := moveCost_override_nonpos grid costs tid v hv
  refine ⟨?_, ?_, ?_, ?_, ?_⟩
  · exact c_find_path_congr width height grid _ _ sx sy ex ey blocked maxCost hmc
  · exact c_find_reachable_congr width height grid _ _ sx sy blocked zoc maxCost hmc
  · exact fun idx hg => moveCost_override_top grid costs tid idx hid hg
  · intro p c hmem hg
    rw [mem_c_find_reachable] at hmem
    obtain ⟨hp, hle, hv'⟩ := hmem
    have hRI := RI_final width height grid (applyOverride costs tid ⊤) blocked zoc
      maxCost sx sy hstart
    have hfin : (reachFinal width height grid (applyOverride costs tid ⊤)
        sx sy blocked maxCost zoc).minCosts (idxOf width p) ≠ ⊤ :=
      ne_top_of_le_ne_top WithTop.coe_ne_top hle
    obtain ⟨l, h1, h2, h3⟩ := hRI.sound p hp hfin
    by_contra hne
    have hlne : l ≠ [] := by
      intro hnil
      rw [hnil] at h2
      exact hne (h2 ▸ rfl)
    have hpmem : p ∈ l := h2 ▸ chainEnd_mem hlne
    have hP := chainOk_all
      (P := fun u => u = ((sx, sy) : Int × Int) ∨
        moveCost grid (applyOverride costs tid ⊤) (idxOf width u) ≠ ⊤)
      h1 (Or.inl rfl) (fun a b hR _ => Or.inr hR.2.2.2.1) p hpmem
    rcases hP with h | h
    · exact hne h
    · exact h (moveCost_override_top grid costs tid (idxOf width p) hid hg)
  · intro p hres u hu
    obtain ⟨hzero, hmain⟩ := c_find_path_spec width height grid
      (applyOverride costs tid ⊤) sx sy ex ey blocked maxCost hres
    by_cases hse : (((ex, ey) : Int × Int)) = (sx, sy)
    · rw [hzero hse] at hu
      cases hu
    · obtain ⟨_, _, hnotin, hchain, _⟩ := hmain hse
      have hP := chainOk_all
        (P := fun t => t = ((sx, sy) : Int × Int) ∨
          moveCost grid (applyOverride costs tid ⊤) (idxOf width t) ≠ ⊤)
        hchain (Or.inl rfl) (fun a b hR _ => Or.inr hR.2.2.2) u hu
      rcases hP with h | h
      · rw [h] at hu
        exact absurd hu hnotin
      · intro hg
        exact h (moveCost_override_top grid costs tid (idxOf width u) hid hg)

theorem claim_C8_witness :
    ((0 : ℚ) ≤ 0 ∧ ((0 : Int) ≤ 0 ∧ (0 : Int) < 100) ∧ inB 1 1 ((0 : Int), (0 : Int))) ∧
    ((c_find_path 1 1 (fun _ => 0) (applyOverride (fun _ => 1) 0 (((0 : ℚ) : Cost)))
        0 0 0 0 (fun _ => false) 1
      = c_find_path 1 1 (fun _ => 0) (applyOverride (fun _ => 1) 0 1)
          0 0 0 0 (fun _ => false) 1) ∧
     (c_find_reachable 1 1 (fun _ => 0) (applyOverride (fun _ => 1) 0 (((0 : ℚ) : Cost)))
        0 0 (fun _ => false) 1 (fun _ => false)
      = c_find_reachable 1 1 (fun _ => 0) (applyOverride (fun _ => 1) 0 1)
          0 0 (fun _ => false) 1 (fun _ => false)) ∧
     (∀ idx : Int, (fun _ => (0 : Int)) idx = 0 →
      moveCost (fun _ => 0) (applyOverride (fun _ => 1) 0 ⊤) idx = ⊤) ∧
     (∀ (p : Int × Int) (c : Cost),
      (p, c) ∈ c_find_reachable 1 1 (fun _ => 0) (applyOverride (fun _ => 1) 0 ⊤)
        0 0 (fun _ => false) 1 (fun _ => false) →
      (fun _ => (0 : Int)) (idxOf 1 p) = 0 → p = (0, 0)) ∧
     (∀ p : List (Int × Int),
      c_find_path 1 1 (fun _ => 0) (applyOverride (fun _ => 1) 0 ⊤)
        0 0 0 0 (fun _ => false) 1 = some p →
      ∀ u ∈ p, (fun _ => (0 : Int)) (idxOf 1 u) ≠ 0)) :=
  ⟨⟨le_refl 0, by decide, by decide⟩,
   claim_C8 1 1 0 (fun _ => 0) (fun _ => 1) (fun _ => false) (fun _ => false)
     0 0 0 0 1 0 (le_refl 0) (by decide) (by decide)⟩

end CAlg
